import Mathlib

/-!
Verification of the CSP scheduling engine of the Clinic Appointment Scheduler
(file aiproject.py).  The engine consists of three functions:

* build_domains (patients, doctors, slots): per-patient candidate lists of
  (doctor_id, slot) pairs, respecting the specialist requirement and the
  preferred-slot list;
* select_unassigned_var (domains, assigned, patient_meta): emergency-first
  minimum-remaining-values variable choice;
* backtracking_search (domains, doctor_capacity, patient_meta): depth-first
  search with forward checking, a (doctor_id, slot) -> count capacity map,
  and explicit undo of tentative state.

Python dicts are modelled as association lists in insertion order (alSet
replaces in place, alErase deletes the entry); Python lists as Lean lists.
Machine-level string operations of the source (str.lower, str.strip,
str.split, lexicographic comparison of strings) are modelled by executable
functions on the character data of a String, with the same semantics on the
inputs the program handles.
-/

abbrev DocId := Nat
abbrev PatId := Nat
abbrev Slot := String
abbrev Val := DocId × Slot

/-- Lookup in an association list (Python dict.get / d[k]). -/
def alGet? {α β : Type} [DecidableEq α] (k : α) : List (α × β) → Option β
  | [] => none
  | e :: m => if e.1 = k then some e.2 else alGet? k m

/-- Lookup with a default (Python dict.get(k, d)). -/
def alGetD {α β : Type} [DecidableEq α] (k : α) (m : List (α × β)) (d : β) : β :=
  (alGet? k m).getD d

/-- Key membership (Python `k in d`). -/
def alContains {α β : Type} [DecidableEq α] (k : α) (m : List (α × β)) : Bool :=
  (alGet? k m).isSome

/-- Update a key in place, or append it at the end when absent
(Python `d[k] = v` with dict insertion-order semantics). -/
def alSet {α β : Type} [DecidableEq α] (k : α) (v : β) : List (α × β) → List (α × β)
  | [] => [(k, v)]
  | e :: m => if e.1 = k then (k, v) :: m else e :: alSet k v m

/-- Delete a key (Python `del d[k]`; at every call site of the source the key
is present, absent keys are left untouched here). -/
def alErase {α β : Type} [DecidableEq α] (k : α) : List (α × β) → List (α × β)
  | [] => []
  | e :: m => if e.1 = k then m else e :: alErase k m

/-- Lexicographic comparison of character lists by code point: the semantics
of comparing two Python strings (used by `sort(key=lambda x: x[1])`). -/
def listLe : List Char → List Char → Bool
  | [], _ => true
  | _ :: _, [] => false
  | a :: as, b :: bs =>
    if a.toNat < b.toNat then true
    else if b.toNat < a.toNat then false
    else listLe as bs

/-- Python str.lower on the character data (the source compares specialty
labels case-insensitively through .lower()). -/
def pyLower (s : String) : List Char := s.data.map Char.toLower

/-- Case-insensitive equality of two strings, as `a.lower() == b.lower()`. -/
def pyLowerEq (a b : String) : Bool := decide (pyLower a = pyLower b)

/-- Whitespace test of Python str.strip for the characters that can occur in
slot labels entered as comma separated text. -/
def isPySpace (c : Char) : Bool :=
  c = ' ' || c = '\t' || c = '\n' || c = '\r'

/-- Python str.strip. -/
def pyStrip (s : String) : String :=
  String.mk (((s.data.dropWhile isPySpace).reverse.dropWhile isPySpace).reverse)

/-- Helper of pySplitComma, accumulating the current chunk in reverse. -/
def splitCommaAux : List Char → List Char → List String
  | [], acc => [String.mk acc.reverse]
  | c :: cs, acc =>
    if c = ',' then String.mk acc.reverse :: splitCommaAux cs []
    else splitCommaAux cs (c :: acc)

/-- Python s.split(","): every comma separates, empty chunks are kept. -/
def pySplitComma (s : String) : List String := splitCommaAux s.data []

/-- A doctor row: id, specialty (empty string models NULL / empty, both falsy
in the source), per-slot capacity. -/
structure Doctor where
  id : DocId
  specialty : String
  capacity_per_slot : Nat
deriving DecidableEq

/-- A patient row.  specialty_required and preferred_slots may be NULL (none);
preferred_slots is the comma separated text stored in the DB. -/
structure Patient where
  id : PatId
  needs_specialist : Bool
  specialty_required : Option String
  emergency : Bool
  preferred_slots : Option String
deriving DecidableEq

/-- Python truthiness of an optional string: None and the empty string are
falsy. -/
def optTruthy : Option String → Bool
  | none => false
  | some s => !s.data.isEmpty

/-- The pref_list computed in build_domains: split the stored comma separated
string, strip each piece, and drop empty pieces; the guard
`if p.get('preferred_slots')` means None and "" give the empty list. -/
def prefListOf (p : Patient) : List String :=
  match p.preferred_slots with
  | none => []
  | some s =>
    if s.data.isEmpty then []
    else ((pySplitComma s).map pyStrip).filter (fun t => !t.data.isEmpty)

/-- The doctor-skipping test of build_domains: a doctor is skipped iff the
patient needs a specialist with a truthy required specialty and the doctor
has no specialty or a case-insensitively different one. -/
def doctorSkipped (p : Patient) (d : Doctor) : Bool :=
  p.needs_specialist && optTruthy p.specialty_required &&
    (d.specialty.data.isEmpty || !pyLowerEq d.specialty (p.specialty_required.getD ""))

/-- The slot-skipping test of build_domains: with a non-empty pref_list a slot
is skipped iff it is not a member of the list. -/
def slotSkipped (p : Patient) (s : Slot) : Bool :=
  !(prefListOf p).isEmpty && !((prefListOf p).contains s)

/-- The allowed list that build_domains computes for one patient: doctors in
list order (specialist-filtered), inner loop over slots (preference
filtered). -/
def allowedFor (p : Patient) (doctors : List Doctor) (slots : List Slot) : List Val :=
  doctors.flatMap fun d =>
    if doctorSkipped p d then []
    else (slots.filter fun s => !slotSkipped p s).map fun s => (d.id, s)

/-- build_domains of the source: dict patient id -> allowed (doctor, slot)
pairs, in patient-list order. -/
def build_domains (patients : List Patient) (doctors : List Doctor)
    (slots : List Slot) : List (PatId × List Val) :=
  patients.foldl (fun acc p => alSet p.id (allowedFor p doctors slots) acc) []

/-- Domain length of a patient, len(domains[v]); at every use site the key is
present, absent keys read as the empty list. -/
def dlen (domains : List (PatId × List Val)) (v : PatId) : Nat :=
  (alGetD v domains []).length

/-- The MRV loop of select_unassigned_var: best is replaced only on a strictly
smaller domain length, so ties keep the first candidate encountered. -/
def selectLoop (domains : List (PatId × List Val)) :
    List PatId → Option (PatId × Nat) → Option (PatId × Nat)
  | [], best => best
  | v :: rest, best =>
    match best with
    | none => selectLoop domains rest (some (v, dlen domains v))
    | some (b, bl) =>
      if dlen domains v < bl then selectLoop domains rest (some (v, dlen domains v))
      else selectLoop domains rest (some (b, bl))

/-- Unassigned patients, in domain-dict key order. -/
def unassignedOf (domains : List (PatId × List Val)) (assigned : List (PatId × Val)) :
    List PatId :=
  (domains.map Prod.fst).filter fun v => !alContains v assigned

/-- The candidate pool: emergency patients among the unassigned when any
exist, else all unassigned. -/
def poolOf (domains : List (PatId × List Val)) (assigned : List (PatId × Val))
    (pmeta : List (PatId × Bool)) : List PatId :=
  let unassigned := unassignedOf domains assigned
  let emergencies := unassigned.filter fun v => alGetD v pmeta false
  if emergencies.isEmpty then unassigned else emergencies

/-- select_unassigned_var of the source. -/
def select_unassigned_var (domains : List (PatId × List Val))
    (assigned : List (PatId × Val)) (patient_meta : List (PatId × Bool)) :
    Option PatId :=
  (selectLoop domains (poolOf domains assigned patient_meta) none).map Prod.fst

abbrev Assign := List (PatId × Val)
abbrev CapMap := List (Val × Nat)
abbrev DomMap := List (PatId × List Val)

/-- The stable ascending sort by slot, `lst.sort(key=lambda x: x[1])`
(Python list.sort is a stable ascending sort by the key; a stable insertion
sort by the same key produces the identical list). -/
def sortBySlot (l : List Val) : List Val :=
  List.insertionSort (fun a b => listLe a.2.data b.2.data = true) l

/-- Search state of the recursive backtrack closure: assigned, capacity_map
and the (local copy of the) domains dict.  decOk instruments the claim that
the capacity decrement of the undo step always finds its key present with a
positive count; it influences nothing else. -/
structure SState where
  assigned : Assign
  capmap : CapMap
  domains : DomMap
  decOk : Bool
deriving DecidableEq

/-- The keep test of forward checking: a value survives iff its tracked usage
is still below the owning doctor's capacity (default 1). -/
def fcKeep (cap : List (DocId × Nat)) (capmap : CapMap) (v : Val) : Bool :=
  decide (alGetD v capmap 0 < alGetD v.1 cap 1)

/-- Forward checking (the `for other in domains` loop): assigned entries are
left alone; an unassigned entry is split into kept and removed values; if
nothing is kept the loop breaks with failure, leaving that entry and all
later ones untouched.  Returns (failure, updated domains, removed_snapshot in
processing order). -/
def fc (cap : List (DocId × Nat)) (capmap : CapMap) (asg : Assign) :
    DomMap → Bool × DomMap × List (PatId × List Val)
  | [] => (false, [], [])
  | e :: rest =>
    if alContains e.1 asg then
      let r := fc cap capmap asg rest
      (r.1, e :: r.2.1, r.2.2)
    else
      let kept := e.2.filter (fcKeep cap capmap)
      let removed := e.2.filter fun v => !fcKeep cap capmap v
      if kept.isEmpty then (true, e :: rest, [(e.1, removed)])
      else
        let r := fc cap capmap asg rest
        (r.1, (e.1, kept) :: r.2.1, (e.1, removed) :: r.2.2)

/-- Domain restoration on backtrack: for each snapshot entry with a non-empty
removed list, the removed values are appended to the current domain of that
patient and the result is re-sorted (stably) by slot. -/
def restoreDoms : DomMap → List (PatId × List Val) → DomMap
  | doms, [] => doms
  | doms, e :: snap =>
    restoreDoms
      (if e.2.isEmpty then doms
       else alSet e.1 (sortBySlot (alGetD e.1 doms [] ++ e.2)) doms) snap

/-- The undo step of one tentative placement: remove the assignment entry,
then `capacity_map[key] = capacity_map.get(key, 1) - 1` followed by deletion
of the entry when it reached zero.  decOk additionally records whether the
key was present with a positive count, i.e. whether the get-default 1 was
dead code at this point. -/
def undoAssign (var : PatId) (key : Val) (st : SState) : SState :=
  let ok := match alGet? key st.capmap with
    | some n => decide (0 < n)
    | none => false
  let c1 := alGetD key st.capmap 1 - 1
  { assigned := alErase var st.assigned
    capmap := if c1 = 0 then alErase key st.capmap else alSet key c1 st.capmap
    domains := st.domains
    decOk := st.decOk && ok }

/-- The tentative commit: `assigned[var] = val` and
`capacity_map[key] = used + 1`. -/
def placeSt (var : PatId) (val : Val) (st : SState) : SState :=
  { st with assigned := alSet var val st.assigned
            capmap := alSet val (alGetD val st.capmap 0 + 1) st.capmap }

/-- The full undo of one placement: remove the assignment entry, decrement
the capacity key, then restore the domains from the removal snapshot. -/
def undoSt (var : PatId) (val : Val) (snap : List (PatId × List Val))
    (st : SState) : SState :=
  let st3 := undoAssign var val st
  { st3 with domains := restoreDoms st3.domains snap }

/-- The value loop of backtrack: skip a saturated value, otherwise place
tentatively, forward check, and either recurse (returning a success upward
unchanged) or undo the placement, restore the domains from the snapshot and
try the next value. -/
def tryVals (cap : List (DocId × Nat)) (recur : SState → Option Assign × SState)
    (var : PatId) : List Val → SState → Option Assign × SState
  | [], st => (none, st)
  | val :: rest, st =>
    if alGetD val.1 cap 1 ≤ alGetD val st.capmap 0 then tryVals cap recur var rest st
    else
      let st1 := placeSt var val st
      let r := fc cap st1.capmap st1.assigned st1.domains
      let st2 : SState := { st1 with domains := r.2.1 }
      if r.1 then tryVals cap recur var rest (undoSt var val r.2.2 st2)
      else
        match recur st2 with
        | (some a, stR) => (some a, stR)
        | (none, stR) => tryVals cap recur var rest (undoSt var val r.2.2 stR)

/-- The recursive backtrack closure, with a fuel bound on the recursion
depth.  Each recursive call of the source strictly grows `assigned`, and the
search returns at `len(assigned) == len(domains)`, so any fuel exceeding the
number of domain entries makes the fuel guard dead code; backtrackRun below
supplies domains.length + 1. -/
def backtrackFuel (cap : List (DocId × Nat)) (pmeta : List (PatId × Bool)) :
    Nat → SState → Option Assign × SState
  | 0, st => (none, st)
  | fuel + 1, st =>
    if st.assigned.length = st.domains.length then (some st.assigned, st)
    else
      match select_unassigned_var st.domains st.assigned pmeta with
      | none => (none, st)
      | some var =>
        tryVals cap (backtrackFuel cap pmeta fuel) var
          (sortBySlot (alGetD var st.domains [])) st

/-- backtracking_search including its final internal state (the Python
function discards the state; it is kept here so that internal facts such as
the capacity-map instrumentation can be stated). -/
def backtrackRun (domains : DomMap) (doctor_capacity : List (DocId × Nat))
    (patient_meta : List (PatId × Bool)) : Option Assign × SState :=
  backtrackFuel doctor_capacity patient_meta (domains.length + 1)
    { assigned := [], capmap := [], domains := domains, decOk := true }

/-- backtracking_search of the source: runs the backtrack closure on a fresh
per-list copy of the domains dict (the copy is the identity on values) and
returns the first complete assignment found, or none. -/
def backtracking_search (domains : DomMap) (doctor_capacity : List (DocId × Nat))
    (patient_meta : List (PatId × Bool)) : Option Assign :=
  (backtrackRun domains doctor_capacity patient_meta).1

/-!
Heap-level refinement for the frame claim.  The Python caller passes a dict
whose values are mutable list objects; backtracking_search first rebinds its
local name to a fresh dict of fresh copies (`domains = {k: list(v) for k, v
in domains.items()}`) and every later in-place operation (extend / sort) hits
lists reachable from that local dict only.  To state that the caller's list
objects are untouched, the model below makes the heap explicit: a Store is a
sequence of list cells, and the domains dict maps each patient to a cell
index.  Replacing a dict value (`domains[other] = new_domain`) allocates a
fresh cell; restore reads, extends and writes the currently referenced cell.
-/

abbrev Store := List (List Val)
abbrev DomRefs := List (PatId × Nat)

/-- Read a list cell. -/
def getCell (store : Store) (i : Nat) : List Val := store.getD i []

/-- Overwrite a list cell (in-place mutation of one list object). -/
def setCell (store : Store) (i : Nat) (v : List Val) : Store := store.set i v

/-- The copy `{k: list(v) for k, v in domains.items()}`: one fresh cell per
entry, holding a copy of the caller's list. -/
def copyDoms : DomRefs → Store → DomRefs × Store
  | [], store => ([], store)
  | e :: rest, store =>
    let idx := store.length
    let r := copyDoms rest (store ++ [getCell store e.2])
    ((e.1, idx) :: r.1, r.2)

/-- The dict view of a reference map over a store. -/
def viewDoms (refs : DomRefs) (store : Store) : DomMap :=
  refs.map fun e => (e.1, getCell store e.2)

/-- Search state of the heap-level model (the assigned dict and the capacity
map hold immutable values, only domain lists live in the store). -/
structure HState where
  assigned : Assign
  capmap : CapMap
  refs : DomRefs

/-- The capacity decrement of the undo step,
`capacity_map[k] = capacity_map.get(k, 1) - 1` then delete on zero. -/
def capDec (key : Val) (cm : CapMap) : CapMap :=
  let c1 := alGetD key cm 1 - 1
  if c1 = 0 then alErase key cm else alSet key c1 cm

/-- Forward checking over the store: an unassigned entry with surviving
values gets its dict reference repointed to a freshly allocated cell holding
the filtered list; the break case touches neither refs nor store. -/
def fcS (cap : List (DocId × Nat)) (capmap : CapMap) (asg : Assign) :
    DomRefs → Store → Bool × DomRefs × Store × List (PatId × List Val)
  | [], store => (false, [], store, [])
  | e :: rest, store =>
    if alContains e.1 asg then
      let r := fcS cap capmap asg rest store
      (r.1, e :: r.2.1, r.2.2.1, r.2.2.2)
    else
      let dom := getCell store e.2
      let kept := dom.filter (fcKeep cap capmap)
      let removed := dom.filter fun v => !fcKeep cap capmap v
      if kept.isEmpty then (true, e :: rest, store, [(e.1, removed)])
      else
        let idx := store.length
        let r := fcS cap capmap asg rest (store ++ [kept])
        (r.1, (e.1, idx) :: r.2.1, r.2.2.1, (e.1, removed) :: r.2.2.2)

/-- Restore over the store: `domains[other].extend(removed)` followed by the
stable sort mutates the currently referenced cell in place. -/
def restoreS (refs : DomRefs) : List (PatId × List Val) → Store → Store
  | [], store => store
  | e :: snap, store =>
    restoreS refs snap
      (if e.2.isEmpty then store
       else setCell store (alGetD e.1 refs 0)
         (sortBySlot (getCell store (alGetD e.1 refs 0) ++ e.2)))

/-- The value loop of backtrack over the store. -/
def tryValsS (cap : List (DocId × Nat))
    (recur : HState → Store → Option Assign × HState × Store) (var : PatId) :
    List Val → HState → Store → Option Assign × HState × Store
  | [], st, store => (none, st, store)
  | val :: rest, st, store =>
    if alGetD val.1 cap 1 ≤ alGetD val st.capmap 0 then tryValsS cap recur var rest st store
    else
      let r := fcS cap (alSet val (alGetD val st.capmap 0 + 1) st.capmap)
        (alSet var val st.assigned) st.refs store
      if r.1 then
        tryValsS cap recur var rest
          { assigned := alErase var (alSet var val st.assigned)
            capmap := capDec val (alSet val (alGetD val st.capmap 0 + 1) st.capmap)
            refs := r.2.1 }
          (restoreS r.2.1 r.2.2.2 r.2.2.1)
      else
        match recur { assigned := alSet var val st.assigned
                      capmap := alSet val (alGetD val st.capmap 0 + 1) st.capmap
                      refs := r.2.1 } r.2.2.1 with
        | (some a, stR, storeR) => (some a, stR, storeR)
        | (none, stR, storeR) =>
          tryValsS cap recur var rest
            { assigned := alErase var stR.assigned
              capmap := capDec val stR.capmap
              refs := stR.refs }
            (restoreS stR.refs r.2.2.2 storeR)

/-- The backtrack closure over the store. -/
def backtrackFuelS (cap : List (DocId × Nat)) (pmeta : List (PatId × Bool)) :
    Nat → HState → Store → Option Assign × HState × Store
  | 0, st, store => (none, st, store)
  | fuel + 1, st, store =>
    if st.assigned.length = st.refs.length then (some st.assigned, st, store)
    else
      match select_unassigned_var (viewDoms st.refs store) st.assigned pmeta with
      | none => (none, st, store)
      | some var =>
        tryValsS cap (backtrackFuelS cap pmeta fuel) var
          (sortBySlot (alGetD var (viewDoms st.refs store) [])) st store

/-- backtracking_search over the explicit heap: copy the caller's lists into
fresh cells, search, and return the result together with the final heap (the
caller's cells are the prefix of the heap below the original length). -/
def backtracking_searchS (callerRefs : DomRefs) (callerStore : Store)
    (cap : List (DocId × Nat)) (pmeta : List (PatId × Bool)) : Option Assign × Store :=
  let c := copyDoms callerRefs callerStore
  let r := backtrackFuelS cap pmeta (callerRefs.length + 1)
    { assigned := [], capmap := [], refs := c.1 } c.2
  (r.1, r.2.2)

/-!
The search invariant: the capacity map is exactly the multiplicity map of the
assigned values, with positive entries bounded by the doctor capacities, the
assigned dict has distinct keys drawn from the domain dict with values drawn
from the initial domains, and every current domain is a subset of the initial
domain of the same patient.
-/

structure SInv (D : DomMap) (cap : List (DocId × Nat)) (st : SState) : Prop where
  dkeys : st.domains.map Prod.fst = D.map Prod.fst
  dsub : ∀ e ∈ st.domains, ∀ v ∈ e.2, v ∈ alGetD e.1 D []
  akeys : (st.assigned.map Prod.fst).Nodup
  asub : ∀ e ∈ st.assigned, e.1 ∈ D.map Prod.fst ∧ e.2 ∈ alGetD e.1 D []
  cpos : ∀ e ∈ st.capmap, 0 < e.2
  ccount : ∀ k : Val, alGetD k st.capmap 0 = st.assigned.countP fun a => decide (a.2 = k)
  cbound : ∀ e ∈ st.capmap, e.2 ≤ alGetD e.1.1 cap 1

/-- What one call of the backtrack closure guarantees: the invariant still
holds, decOk is untouched, a failing call restores assigned and capacity map
exactly, and a successful call returns its final complete assigned dict. -/
def Post (D : DomMap) (cap : List (DocId × Nat)) (st : SState)
    (r : Option Assign × SState) : Prop :=
  SInv D cap r.2 ∧ r.2.decOk = st.decOk ∧
  (r.1 = none → r.2.assigned = st.assigned ∧ r.2.capmap = st.capmap) ∧
  ∀ a, r.1 = some a → a = r.2.assigned ∧ r.2.assigned.length = r.2.domains.length

/-- All dict references point at or above the frame bound. -/
def RefsGe (n : Nat) (refs : DomRefs) : Prop := ∀ e ∈ refs, n ≤ e.2

/-- The frame contract of one store-level call: references stay above the
bound with unchanged dict keys, and the store only grows, with the prefix
below the bound untouched. -/
def FrameOut (n : Nat) (refs0 : DomRefs) (store0 : Store)
    (r : Option Assign × HState × Store) : Prop :=
  RefsGe n r.2.1.refs ∧ (r.2.1.refs).map Prod.fst = refs0.map Prod.fst ∧
  n ≤ r.2.2.length ∧ r.2.2.take n = store0.take n

/-!
Basic facts about the association-list model of Python dicts.
-/

theorem alGet?_mem {α β : Type} [DecidableEq α] {k : α} {v : β} :
    ∀ {m : List (α × β)}, alGet? k m = some v → (k, v) ∈ m := by
  intro m
  induction m with
  | nil => simp [alGet?]
  | cons e m ih =>
    obtain ⟨a, b⟩ := e
    intro h
    by_cases he : a = k
    · subst he
      simp [alGet?] at h
      simp [h]
    · simp only [alGet?, if_neg he] at h
      exact List.mem_cons_of_mem _ (ih h)

theorem alGet?_eq_none_iff {α β : Type} [DecidableEq α] {k : α} :
    ∀ {m : List (α × β)}, alGet? k m = none ↔ k ∉ m.map Prod.fst := by
  intro m
  induction m with
  | nil => simp [alGet?]
  | cons e m ih =>
    by_cases h : e.1 = k
    · simp [alGet?, h]
    · simp [alGet?, h, ih, Ne.symm h]

theorem alGet?_isSome_iff {α β : Type} [DecidableEq α] {k : α} {m : List (α × β)} :
    (alGet? k m).isSome = true ↔ k ∈ m.map Prod.fst := by
  rcases h : alGet? k m with _ | v
  · simpa [h] using alGet?_eq_none_iff.mp h
  · simp only [Option.isSome_some, true_iff]
    exact List.mem_map.mpr ⟨(k, v), alGet?_mem h, rfl⟩

theorem alContains_false_iff {α β : Type} [DecidableEq α] {k : α} {m : List (α × β)} :
    alContains k m = false ↔ k ∉ m.map Prod.fst := by
  unfold alContains
  rcases h : alGet? k m with _ | v
  · simpa [h] using alGet?_eq_none_iff.mp h
  · simp only [Option.isSome_some, Bool.true_eq_false, false_iff, not_not]
    exact List.mem_map.mpr ⟨(k, v), alGet?_mem h, rfl⟩

theorem alGet?_of_mem_nodup {α β : Type} [DecidableEq α] {k : α} {v : β} :
    ∀ {m : List (α × β)}, (m.map Prod.fst).Nodup → (k, v) ∈ m → alGet? k m = some v := by
  intro m
  induction m with
  | nil => simp
  | cons e m ih =>
    intro hnd hm
    simp only [List.map_cons, List.nodup_cons] at hnd
    rcases List.mem_cons.mp hm with h | h
    · subst h; simp [alGet?]
    · have hk : e.1 ≠ k := by
        intro he
        exact hnd.1 (he ▸ List.mem_map.mpr ⟨(k, v), h, rfl⟩)
      simp only [alGet?, if_neg hk]
      exact ih hnd.2 h

theorem alSet_of_not_mem {α β : Type} [DecidableEq α] {k : α} {v : β} :
    ∀ {m : List (α × β)}, k ∉ m.map Prod.fst → alSet k v m = m ++ [(k, v)] := by
  intro m
  induction m with
  | nil => simp [alSet]
  | cons e m ih =>
    intro h
    simp only [List.map_cons, List.mem_cons, not_or] at h
    simp [alSet, Ne.symm h.1, ih h.2]

theorem alErase_append_of_not_mem {α β : Type} [DecidableEq α] {k : α} {v : β} :
    ∀ {m : List (α × β)}, k ∉ m.map Prod.fst → alErase k (m ++ [(k, v)]) = m := by
  intro m
  induction m with
  | nil => simp [alErase]
  | cons e m ih =>
    intro h
    simp only [List.map_cons, List.mem_cons, not_or] at h
    simp [alErase, Ne.symm h.1, ih h.2]

theorem alGet?_alSet_self {α β : Type} [DecidableEq α] (k : α) (v : β) :
    ∀ (m : List (α × β)), alGet? k (alSet k v m) = some v := by
  intro m
  induction m with
  | nil => simp [alSet, alGet?]
  | cons e m ih =>
    by_cases h : e.1 = k
    · simp [alSet, alGet?, h]
    · simp [alSet, alGet?, h, ih]

theorem alGet?_alSet_ne {α β : Type} [DecidableEq α] {k j : α} (v : β) (h : j ≠ k) :
    ∀ (m : List (α × β)), alGet? j (alSet k v m) = alGet? j m := by
  intro m
  induction m with
  | nil => simp [alSet, alGet?, Ne.symm h]
  | cons e m ih =>
    by_cases he : e.1 = k
    · simp [alSet, alGet?, he, Ne.symm h]
    · simp only [alSet, if_neg he, alGet?]
      by_cases hj : e.1 = j
      · simp [hj]
      · simp [hj, ih]

theorem alSet_alSet {α β : Type} [DecidableEq α] (k : α) (v w : β) :
    ∀ (m : List (α × β)), alSet k v (alSet k w m) = alSet k v m := by
  intro m
  induction m with
  | nil => simp [alSet]
  | cons e m ih =>
    by_cases h : e.1 = k
    · simp [alSet, h]
    · simp [alSet, h, ih]

theorem alSet_eq_self {α β : Type} [DecidableEq α] {k : α} {v : β} :
    ∀ {m : List (α × β)}, alGet? k m = some v → alSet k v m = m := by
  intro m
  induction m with
  | nil => simp [alGet?]
  | cons e m ih =>
    intro h
    by_cases he : e.1 = k
    · cases e with
      | mk a b =>
        simp only [alGet?, if_pos he] at h
        cases h
        subst he
        simp [alSet]
    · simp only [alGet?, if_neg he] at h
      simp [alSet, he, ih h]

theorem map_fst_alSet_of_mem {α β : Type} [DecidableEq α] {k : α} (v : β) :
    ∀ {m : List (α × β)}, k ∈ m.map Prod.fst → (alSet k v m).map Prod.fst = m.map Prod.fst := by
  intro m
  induction m with
  | nil => simp
  | cons e m ih =>
    intro h
    by_cases he : e.1 = k
    · simp [alSet, he]
    · simp only [List.map_cons, List.mem_cons] at h
      rcases h with h | h
      · exact absurd h.symm he
      · simp [alSet, he, ih h]

theorem mem_alSet_elim {α β : Type} [DecidableEq α] {k : α} {v : β} {e : α × β} :
    ∀ {m : List (α × β)}, e ∈ alSet k v m → e = (k, v) ∨ e ∈ m := by
  intro m
  induction m with
  | nil => simp [alSet]
  | cons f m ih =>
    intro h
    by_cases hf : f.1 = k
    · simp only [alSet, if_pos hf, List.mem_cons] at h
      rcases h with h | h
      · exact Or.inl h
      · exact Or.inr (List.mem_cons_of_mem _ h)
    · simp only [alSet, if_neg hf, List.mem_cons] at h
      rcases h with h | h
      · exact Or.inr (List.mem_cons.mpr (Or.inl h))
      · rcases ih h with h | h
        · exact Or.inl h
        · exact Or.inr (List.mem_cons_of_mem _ h)

theorem map_fst_alSet_nodup {α β : Type} [DecidableEq α] {k : α} (v : β)
    {m : List (α × β)} (h : (m.map Prod.fst).Nodup) :
    ((alSet k v m).map Prod.fst).Nodup := by
  by_cases hk : k ∈ m.map Prod.fst
  · rwa [map_fst_alSet_of_mem v hk]
  · rw [alSet_of_not_mem hk]
    simp only [List.map_append, List.map_cons, List.map_nil]
    rw [List.nodup_append]
    exact ⟨h, List.nodup_singleton k, by simpa using hk⟩

theorem alGetD_alSet_self {α β : Type} [DecidableEq α] (k : α) (v : β)
    (m : List (α × β)) (d : β) : alGetD k (alSet k v m) d = v := by
  simp [alGetD, alGet?_alSet_self]

theorem alGetD_alSet_ne {α β : Type} [DecidableEq α] {k j : α} (v : β) (h : j ≠ k)
    (m : List (α × β)) (d : β) : alGetD j (alSet k v m) d = alGetD j m d := by
  simp [alGetD, alGet?_alSet_ne v h]

/-- Perm and membership facts about the stable sort by slot. -/
theorem sortBySlot_perm (l : List Val) : (sortBySlot l).Perm l :=
  List.perm_insertionSort _ l

theorem mem_sortBySlot {v : Val} {l : List Val} : v ∈ sortBySlot l ↔ v ∈ l :=
  (sortBySlot_perm l).mem_iff

/-- The undo step after a placement: erasing the assignment entry and
decrementing the capacity key restore exactly the maps from before the
placement, and the decrement finds its key present with a positive count
(so decOk is preserved). -/
theorem undoAssign_spec {var : PatId} {key : Val} {st : SState}
    {asg0 : Assign} {cm0 : CapMap}
    (ha : st.assigned = alSet var key asg0) (hv : var ∉ asg0.map Prod.fst)
    (hc : st.capmap = alSet key (alGetD key cm0 0 + 1) cm0)
    (hpos : ∀ e ∈ cm0, 0 < e.2) :
    (undoAssign var key st).assigned = asg0 ∧
    (undoAssign var key st).capmap = cm0 ∧
    (undoAssign var key st).decOk = st.decOk ∧
    (undoAssign var key st).domains = st.domains := by
  have hget : alGet? key st.capmap = some (alGetD key cm0 0 + 1) := by
    rw [hc]; exact alGet?_alSet_self _ _ _
  refine ⟨?_, ?_, ?_, rfl⟩
  · rw [undoAssign, ha, alSet_of_not_mem hv]
    exact alErase_append_of_not_mem hv
  · show (if alGetD key st.capmap 1 - 1 = 0
        then alErase key st.capmap else alSet key (alGetD key st.capmap 1 - 1) st.capmap) = cm0
    have hgd : alGetD key st.capmap 1 = alGetD key cm0 0 + 1 := by
      simp [alGetD, hget]
    rw [hgd, Nat.add_sub_cancel]
    rcases h0 : alGet? key cm0 with _ | w
    · have hnm : key ∉ cm0.map Prod.fst := alGet?_eq_none_iff.mp h0
      have hu : alGetD key cm0 0 = 0 := by simp [alGetD, h0]
      rw [hu, if_pos rfl, hc, hu, alSet_of_not_mem hnm]
      exact alErase_append_of_not_mem hnm
    · have hu : alGetD key cm0 0 = w := by simp [alGetD, h0]
      have hw : 0 < w := hpos (key, w) (alGet?_mem h0)
      rw [hu, if_neg (Nat.pos_iff_ne_zero.mp hw), hc, hu, alSet_alSet]
      exact alSet_eq_self h0
  · have hok : (match alGet? key st.capmap with
        | some n => decide (0 < n)
        | none => false) = true := by
      rw [hget]; simp
    simp only [undoAssign, hok, Bool.and_true]

/-!
Shape facts about forward checking and domain restoration.
-/

theorem fc_fst (cap : List (DocId × Nat)) (capmap : CapMap) (asg : Assign) :
    ∀ ds : DomMap, ((fc cap capmap asg ds).2.1).map Prod.fst = ds.map Prod.fst := by
  intro ds
  induction ds with
  | nil => simp [fc]
  | cons f rest ih =>
    by_cases h1 : alContains f.1 asg
    · simp [fc, h1, ih]
    · by_cases h2 : (f.2.filter (fcKeep cap capmap)).isEmpty
      · simp [fc, h1, h2]
      · simp [fc, h1, h2, ih]

theorem fc_sub (cap : List (DocId × Nat)) (capmap : CapMap) (asg : Assign) :
    ∀ ds : DomMap, ∀ e ∈ (fc cap capmap asg ds).2.1,
      ∃ dom, (e.1, dom) ∈ ds ∧ e.2.Sublist dom := by
  intro ds
  induction ds with
  | nil => simp [fc]
  | cons f rest ih =>
    intro e he
    by_cases h1 : alContains f.1 asg
    · simp only [fc, if_pos h1] at he
      rcases List.mem_cons.mp he with he | he
      · subst he
        exact ⟨e.2, List.mem_cons_self _ _, List.Sublist.refl _⟩
      · obtain ⟨dom, hd, hs⟩ := ih e he
        exact ⟨dom, List.mem_cons_of_mem _ hd, hs⟩
    · by_cases h2 : (f.2.filter (fcKeep cap capmap)).isEmpty
      · simp only [fc, if_neg h1, if_pos h2] at he
        exact ⟨e.2, he, List.Sublist.refl _⟩
      · simp only [fc, if_neg h1, if_neg h2] at he
        rcases List.mem_cons.mp he with he | he
        · subst he
          exact ⟨f.2, List.mem_cons_self _ _, List.filter_sublist _⟩
        · obtain ⟨dom, hd, hs⟩ := ih e he
          exact ⟨dom, List.mem_cons_of_mem _ hd, hs⟩

theorem fc_snap_sub (cap : List (DocId × Nat)) (capmap : CapMap) (asg : Assign) :
    ∀ ds : DomMap, ∀ e ∈ (fc cap capmap asg ds).2.2,
      ∃ dom, (e.1, dom) ∈ ds ∧ e.2.Sublist dom := by
  intro ds
  induction ds with
  | nil => simp [fc]
  | cons f rest ih =>
    intro e he
    by_cases h1 : alContains f.1 asg
    · simp only [fc, if_pos h1] at he
      obtain ⟨dom, hd, hs⟩ := ih e he
      exact ⟨dom, List.mem_cons_of_mem _ hd, hs⟩
    · by_cases h2 : (f.2.filter (fcKeep cap capmap)).isEmpty
      · simp only [fc, if_neg h1, if_pos h2, List.mem_singleton] at he
        subst he
        exact ⟨f.2, List.mem_cons_self _ _, List.filter_sublist _⟩
      · simp only [fc, if_neg h1, if_neg h2] at he
        rcases List.mem_cons.mp he with he | he
        · subst he
          exact ⟨f.2, List.mem_cons_self _ _, List.filter_sublist _⟩
        · obtain ⟨dom, hd, hs⟩ := ih e he
          exact ⟨dom, List.mem_cons_of_mem _ hd, hs⟩

theorem fc_snap_keys (cap : List (DocId × Nat)) (capmap : CapMap) (asg : Assign)
    (ds : DomMap) : ∀ e ∈ (fc cap capmap asg ds).2.2, e.1 ∈ ds.map Prod.fst := by
  intro e he
  obtain ⟨dom, hd, _⟩ := fc_snap_sub cap capmap asg ds e he
  exact List.mem_map.mpr ⟨(e.1, dom), hd, rfl⟩

theorem restore_fst :
    ∀ (snap : List (PatId × List Val)) (doms : DomMap),
      (∀ e ∈ snap, e.1 ∈ doms.map Prod.fst) →
      (restoreDoms doms snap).map Prod.fst = doms.map Prod.fst := by
  intro snap
  induction snap with
  | nil => intro doms _; simp [restoreDoms]
  | cons f snap ih =>
    intro doms h
    simp only [restoreDoms]
    by_cases hf : f.2.isEmpty
    · rw [if_pos hf]
      exact ih doms fun e he => h e (List.mem_cons_of_mem _ he)
    · rw [if_neg hf]
      have hk : f.1 ∈ doms.map Prod.fst := h f (List.mem_cons_self _ _)
      have hkeys : (alSet f.1 (sortBySlot (alGetD f.1 doms [] ++ f.2)) doms).map Prod.fst
          = doms.map Prod.fst := map_fst_alSet_of_mem _ hk
      rw [ih _ ?_, hkeys]
      intro e he
      rw [hkeys]
      exact h e (List.mem_cons_of_mem _ he)

theorem restore_q (Q : PatId → Val → Prop) :
    ∀ (snap : List (PatId × List Val)) (doms : DomMap),
      (∀ e ∈ doms, ∀ v ∈ e.2, Q e.1 v) →
      (∀ e ∈ snap, ∀ v ∈ e.2, Q e.1 v) →
      ∀ e ∈ restoreDoms doms snap, ∀ v ∈ e.2, Q e.1 v := by
  intro snap
  induction snap with
  | nil => intro doms hd _; simpa [restoreDoms] using hd
  | cons f snap ih =>
    intro doms hd hs
    simp only [restoreDoms]
    by_cases hf : f.2.isEmpty
    · rw [if_pos hf]
      exact ih doms hd fun e he => hs e (List.mem_cons_of_mem _ he)
    · rw [if_neg hf]
      apply ih _ ?_ fun e he => hs e (List.mem_cons_of_mem _ he)
      intro e he v hv
      rcases mem_alSet_elim he with he | he
      · subst he
        rcases List.mem_append.mp (mem_sortBySlot.mp hv) with hv | hv
        · rcases hget : alGet? f.1 doms with _ | dom
          · simp [alGetD, hget] at hv
          · have hm : (f.1, dom) ∈ doms := alGet?_mem hget
            have : v ∈ dom := by simpa [alGetD, hget] using hv
            exact hd (f.1, dom) hm v this
        · exact hs f (List.mem_cons_self _ _) v hv
      · exact hd e he v hv

/-!
Facts about select_unassigned_var.
-/

theorem selectLoop_isSome (d : DomMap) :
    ∀ (l : List PatId) (x : PatId × Nat), (selectLoop d l (some x)).isSome = true := by
  intro l
  induction l with
  | nil => intro x; simp [selectLoop]
  | cons v rest ih =>
    intro x
    obtain ⟨b, bl⟩ := x
    simp only [selectLoop]
    by_cases h : dlen d v < bl
    · rw [if_pos h]; exact ih _
    · rw [if_neg h]; exact ih _

theorem selectLoop_none_iff (d : DomMap) (l : List PatId) :
    selectLoop d l none = none ↔ l = [] := by
  cases l with
  | nil => simp [selectLoop]
  | cons v rest =>
    simp only [selectLoop]
    constructor
    · intro h
      have := selectLoop_isSome d rest (v, dlen d v)
      rw [h] at this
      simp at this
    · intro h
      simp at h

theorem selectLoop_mem (d : DomMap) :
    ∀ (l : List PatId) (acc : Option (PatId × Nat)) (r : PatId × Nat),
      selectLoop d l acc = some r → acc = some r ∨ r.1 ∈ l := by
  intro l
  induction l with
  | nil =>
    intro acc r h
    simp only [selectLoop] at h
    exact Or.inl h
  | cons v rest ih =>
    intro acc r h
    match acc with
    | none =>
      simp only [selectLoop] at h
      rcases ih _ r h with h1 | h1
      · injection h1 with h1
        exact Or.inr (h1 ▸ List.mem_cons_self _ _)
      · exact Or.inr (List.mem_cons_of_mem _ h1)
    | some (b, bl) =>
      simp only [selectLoop] at h
      by_cases hlt : dlen d v < bl
      · rw [if_pos hlt] at h
        rcases ih _ r h with h1 | h1
        · injection h1 with h1
          exact Or.inr (h1 ▸ List.mem_cons_self _ _)
        · exact Or.inr (List.mem_cons_of_mem _ h1)
      · rw [if_neg hlt] at h
        rcases ih _ r h with h1 | h1
        · exact Or.inl h1
        · exact Or.inr (List.mem_cons_of_mem _ h1)

theorem mem_pool_unassigned {d : DomMap} {a : Assign} {m : List (PatId × Bool)}
    {var : PatId} (h : var ∈ poolOf d a m) : var ∈ unassignedOf d a := by
  simp only [poolOf] at h
  by_cases he : ((unassignedOf d a).filter fun v => alGetD v m false).isEmpty
  · simpa [he] using h
  · rw [if_neg he] at h
    exact (List.mem_filter.mp h).1

theorem select_some_unassigned {d : DomMap} {a : Assign} {m : List (PatId × Bool)}
    {var : PatId} (h : select_unassigned_var d a m = some var) :
    var ∈ d.map Prod.fst ∧ alContains var a = false := by
  unfold select_unassigned_var at h
  rcases hr : selectLoop d (poolOf d a m) none with _ | r
  · rw [hr] at h; simp at h
  · rw [hr] at h
    simp at h
    rcases selectLoop_mem d _ _ _ hr with h1 | h1
    · simp at h1
    · have hpool : var ∈ poolOf d a m := h ▸ h1
      have hun := mem_pool_unassigned hpool
      simp only [unassignedOf] at hun
      have h2 := List.mem_filter.mp hun
      exact ⟨h2.1, by simpa using h2.2⟩

theorem post_trans {D : DomMap} {cap : List (DocId × Nat)} {st st4 : SState}
    {r : Option Assign × SState} (hp : Post D cap st4 r)
    (ha : st4.assigned = st.assigned) (hc : st4.capmap = st.capmap)
    (hok : st4.decOk = st.decOk) : Post D cap st r := by
  obtain ⟨h1, h2, h3, h4⟩ := hp
  exact ⟨h1, h2.trans hok,
    fun hn => ⟨((h3 hn).1).trans ha, ((h3 hn).2).trans hc⟩, h4⟩

/-- A placement that passed the capacity guard preserves the invariant. -/
theorem place_spec (D : DomMap) (cap : List (DocId × Nat)) {st : SState}
    {var : PatId} {val : Val} (hInv : SInv D cap st) (hvar : var ∈ D.map Prod.fst)
    (hvd : val ∈ alGetD var D []) (hna : alContains var st.assigned = false)
    (hguard : ¬ alGetD val.1 cap 1 ≤ alGetD val st.capmap 0) :
    SInv D cap (placeSt var val st) := by
  have hvnm : var ∉ st.assigned.map Prod.fst := alContains_false_iff.mp hna
  have hset : alSet var val st.assigned = st.assigned ++ [(var, val)] :=
    alSet_of_not_mem hvnm
  refine ⟨hInv.dkeys, hInv.dsub, ?_, ?_, ?_, ?_, ?_⟩
  · show ((alSet var val st.assigned).map Prod.fst).Nodup
    rw [hset]
    simp only [List.map_append, List.map_cons, List.map_nil]
    rw [List.nodup_append]
    refine ⟨hInv.akeys, List.nodup_singleton _, ?_⟩
    intro x hx hx2
    simp only [List.mem_singleton] at hx2
    subst hx2
    exact hvnm hx
  · show ∀ e ∈ alSet var val st.assigned, e.1 ∈ D.map Prod.fst ∧ e.2 ∈ alGetD e.1 D []
    intro e he
    rw [hset] at he
    rcases List.mem_append.mp he with he | he
    · exact hInv.asub e he
    · simp only [List.mem_singleton] at he
      subst he
      exact ⟨hvar, hvd⟩
  · intro e he
    rcases mem_alSet_elim he with he | he
    · rw [he]; exact Nat.succ_pos _
    · exact hInv.cpos e he
  · intro k
    show alGetD k (alSet val (alGetD val st.capmap 0 + 1) st.capmap) 0
      = (alSet var val st.assigned).countP fun a => decide (a.2 = k)
    by_cases hk : k = val
    · subst hk
      rw [alGetD_alSet_self, hset, List.countP_append, hInv.ccount k]
      simp
    · rw [alGetD_alSet_ne _ hk, hset, List.countP_append, hInv.ccount k]
      have hne : val ≠ k := fun h => hk h.symm
      simp [List.countP_cons, hne]
  · intro e he
    rcases mem_alSet_elim he with he | he
    · rw [he]
      exact Nat.succ_le_of_lt (Nat.lt_of_not_le hguard)
    · exact hInv.cbound e he

/-- Forward checking preserves the invariant (it only filters domains and
reads the capacity map). -/
theorem fc_state_inv {D : DomMap} {cap : List (DocId × Nat)} {st : SState}
    (hInv : SInv D cap st) :
    SInv D cap { st with domains := (fc cap st.capmap st.assigned st.domains).2.1 } := by
  refine ⟨?_, ?_, hInv.akeys, hInv.asub, hInv.cpos, hInv.ccount, hInv.cbound⟩
  · show ((fc cap st.capmap st.assigned st.domains).2.1).map Prod.fst = D.map Prod.fst
    rw [fc_fst, hInv.dkeys]
  · intro e he v hv
    obtain ⟨dom, hd, hs⟩ := fc_sub cap st.capmap st.assigned st.domains e he
    exact hInv.dsub (e.1, dom) hd v (hs.subset hv)

/-- Undoing a placement from any state whose assigned and capacity maps are
exactly the post-placement ones restores them exactly, keeps decOk, and
re-establishes the invariant for the restored domains. -/
theorem undo_restore_spec (D : DomMap) (cap : List (DocId × Nat)) {st stX : SState}
    (var : PatId) (val : Val) (snap : List (PatId × List Val))
    (hInv : SInv D cap st) (hInvX : SInv D cap stX)
    (ha : stX.assigned = alSet var val st.assigned)
    (hc : stX.capmap = alSet val (alGetD val st.capmap 0 + 1) st.capmap)
    (hok : stX.decOk = st.decOk)
    (hvnm : var ∉ st.assigned.map Prod.fst)
    (hsnapK : ∀ e ∈ snap, e.1 ∈ D.map Prod.fst)
    (hsnapQ : ∀ e ∈ snap, ∀ v ∈ e.2, v ∈ alGetD e.1 D []) :
    SInv D cap (undoSt var val snap stX) ∧
    (undoSt var val snap stX).assigned = st.assigned ∧
    (undoSt var val snap stX).capmap = st.capmap ∧
    (undoSt var val snap stX).decOk = st.decOk := by
  obtain ⟨hA, hC, hOk, hD⟩ := @undoAssign_spec var val stX st.assigned st.capmap ha hvnm hc hInv.cpos
  have hkeys3 : ((undoAssign var val stX).domains).map Prod.fst = D.map Prod.fst := by
    rw [hD, hInvX.dkeys]
  refine ⟨⟨?_, ?_, ?_, ?_, ?_, ?_, ?_⟩, ?_, ?_, ?_⟩
  · show ((restoreDoms (undoAssign var val stX).domains snap).map Prod.fst) = D.map Prod.fst
    rw [restore_fst snap _ ?_, hkeys3]
    intro e he
    rw [hkeys3]
    exact hsnapK e he
  · show ∀ e ∈ restoreDoms (undoAssign var val stX).domains snap, ∀ v ∈ e.2, v ∈ alGetD e.1 D []
    apply restore_q (fun pid v => v ∈ alGetD pid D []) snap _ ?_ hsnapQ
    intro e he v hv
    rw [hD] at he
    exact hInvX.dsub e he v hv
  · show (((undoAssign var val stX).assigned).map Prod.fst).Nodup
    rw [hA]; exact hInv.akeys
  · show ∀ e ∈ (undoAssign var val stX).assigned, e.1 ∈ D.map Prod.fst ∧ e.2 ∈ alGetD e.1 D []
    rw [hA]; exact hInv.asub
  · show ∀ e ∈ (undoAssign var val stX).capmap, 0 < e.2
    rw [hC]; exact hInv.cpos
  · intro k
    show alGetD k (undoAssign var val stX).capmap 0
      = ((undoAssign var val stX).assigned).countP fun a => decide (a.2 = k)
    rw [hA, hC]; exact hInv.ccount k
  · show ∀ e ∈ (undoAssign var val stX).capmap, e.2 ≤ alGetD e.1.1 cap 1
    rw [hC]; exact hInv.cbound
  · exact hA
  · exact hC
  · exact hOk.trans hok

/-- The value loop preserves the search contract: assuming the contract for
the recursive call, one pass over the candidate values of an unassigned
variable satisfies it as well. -/
theorem tryVals_post (D : DomMap) (cap : List (DocId × Nat))
    (recur : SState → Option Assign × SState)
    (hrec : ∀ st, SInv D cap st → Post D cap st (recur st)) (var : PatId)
    (hvar : var ∈ D.map Prod.fst) :
    ∀ (vals : List Val) (st : SState), SInv D cap st →
      (∀ v ∈ vals, v ∈ alGetD var D []) →
      alContains var st.assigned = false →
      Post D cap st (tryVals cap recur var vals st) := by
  intro vals
  induction vals with
  | nil =>
    intro st hInv _ _
    refine ⟨hInv, rfl, fun _ => ⟨rfl, rfl⟩, fun a ha => ?_⟩
    exact absurd ha (by simp [tryVals])
  | cons val rest ih =>
    intro st hInv hvals hna
    have hvnm : var ∉ st.assigned.map Prod.fst := alContains_false_iff.mp hna
    by_cases hguard : alGetD val.1 cap 1 ≤ alGetD val st.capmap 0
    · have heq : tryVals cap recur var (val :: rest) st = tryVals cap recur var rest st := by
        simp only [tryVals, if_pos hguard]
      rw [heq]
      exact ih st hInv (fun v hv => hvals v (List.mem_cons_of_mem _ hv)) hna
    · have hInv1 : SInv D cap (placeSt var val st) :=
        place_spec D cap hInv hvar (hvals val (List.mem_cons_self _ _)) hna hguard
      have hInv2 : SInv D cap { placeSt var val st with
          domains := (fc cap (placeSt var val st).capmap (placeSt var val st).assigned
            (placeSt var val st).domains).2.1 } :=
        fc_state_inv hInv1
      set F := fc cap (placeSt var val st).capmap (placeSt var val st).assigned
        (placeSt var val st).domains with hF
      set st2 : SState := { placeSt var val st with domains := F.2.1 } with hst2
      have hsnapK : ∀ e ∈ F.2.2, e.1 ∈ D.map Prod.fst := by
        intro e he
        have h1 := fc_snap_keys cap (placeSt var val st).capmap (placeSt var val st).assigned
          (placeSt var val st).domains e (hF ▸ he)
        have h2 : (placeSt var val st).domains.map Prod.fst = D.map Prod.fst := hInv.dkeys
        exact h2 ▸ h1
      have hsnapQ : ∀ e ∈ F.2.2, ∀ v ∈ e.2, v ∈ alGetD e.1 D [] := by
        intro e he v hv
        obtain ⟨dom, hd, hs⟩ := fc_snap_sub cap (placeSt var val st).capmap
          (placeSt var val st).assigned (placeSt var val st).domains e (hF ▸ he)
        exact hInv1.dsub (e.1, dom) hd v (hs.subset hv)
      by_cases hfail : F.1 = true
      · have heq : tryVals cap recur var (val :: rest) st =
            tryVals cap recur var rest (undoSt var val F.2.2 st2) := by
          simp only [tryVals]
          rw [if_neg hguard, ← hF, if_pos hfail, ← hst2]
        rw [heq]
        obtain ⟨hI4, hA4, hC4, hOk4⟩ :=
          undo_restore_spec D cap var val F.2.2 hInv hInv2 rfl rfl rfl hvnm hsnapK hsnapQ
        have hna4 : alContains var (undoSt var val F.2.2 st2).assigned = false := by
          rw [hA4]; exact hna
        exact post_trans
          (ih (undoSt var val F.2.2 st2) hI4
            (fun v hv => hvals v (List.mem_cons_of_mem _ hv)) hna4) hA4 hC4 hOk4
      · have heq : tryVals cap recur var (val :: rest) st =
            (match recur st2 with
             | (some a, stR) => (some a, stR)
             | (none, stR) => tryVals cap recur var rest (undoSt var val F.2.2 stR)) := by
          simp only [tryVals]
          rw [if_neg hguard, ← hF, if_neg hfail, ← hst2]
        rw [heq]
        have hpost2 := hrec st2 hInv2
        rcases hR : recur st2 with ⟨oa, stR⟩
        rw [hR] at hpost2
        cases oa with
        | some a =>
          obtain ⟨hIr, hOkr, _, hsome⟩ := hpost2
          refine ⟨hIr, hOkr.trans rfl, fun hn => ?_, fun b hb => hsome b hb⟩
          exact absurd hn (by simp)
        | none =>
          obtain ⟨hIr, hOkr, hrest, _⟩ := hpost2
          have hres := hrest rfl
          have ha2 : stR.assigned = alSet var val st.assigned := hres.1.trans rfl
          have hc2 : stR.capmap = alSet val (alGetD val st.capmap 0 + 1) st.capmap :=
            hres.2.trans rfl
          have hok2 : stR.decOk = st.decOk := hOkr.trans rfl
          obtain ⟨hI4, hA4, hC4, hOk4⟩ :=
            undo_restore_spec D cap var val F.2.2 hInv hIr ha2 hc2 hok2 hvnm hsnapK hsnapQ
          have hna4 : alContains var (undoSt var val F.2.2 stR).assigned = false := by
            rw [hA4]; exact hna
          exact post_trans
            (ih (undoSt var val F.2.2 stR) hI4
              (fun v hv => hvals v (List.mem_cons_of_mem _ hv)) hna4) hA4 hC4 hOk4

/-- The backtrack closure satisfies the search contract at every fuel. -/
theorem backtrack_post (D : DomMap) (cap : List (DocId × Nat))
    (pmeta : List (PatId × Bool)) :
    ∀ (fuel : Nat) (st : SState), SInv D cap st →
      Post D cap st (backtrackFuel cap pmeta fuel st) := by
  intro fuel
  induction fuel with
  | zero =>
    intro st hInv
    refine ⟨hInv, rfl, fun _ => ⟨rfl, rfl⟩, fun a ha => ?_⟩
    exact absurd ha (by simp [backtrackFuel])
  | succ fuel ih =>
    intro st hInv
    by_cases hdone : st.assigned.length = st.domains.length
    · have heq : backtrackFuel cap pmeta (fuel + 1) st = (some st.assigned, st) := by
        simp [backtrackFuel, hdone]
      rw [heq]
      refine ⟨hInv, rfl, fun hn => absurd hn (by simp), fun a ha => ?_⟩
      have : st.assigned = a := by injection ha
      exact ⟨this.symm, hdone⟩
    · rcases hsel : select_unassigned_var st.domains st.assigned pmeta with _ | var
      · have heq : backtrackFuel cap pmeta (fuel + 1) st = (none, st) := by
          simp [backtrackFuel, hdone, hsel]
        rw [heq]
        exact ⟨hInv, rfl, fun _ => ⟨rfl, rfl⟩, fun a ha => absurd ha (by simp)⟩
      · have heq : backtrackFuel cap pmeta (fuel + 1) st =
            tryVals cap (backtrackFuel cap pmeta fuel) var
              (sortBySlot (alGetD var st.domains [])) st := by
          simp [backtrackFuel, hdone, hsel]
        rw [heq]
        obtain ⟨hvd, hvna⟩ := select_some_unassigned hsel
        have hvar : var ∈ D.map Prod.fst := hInv.dkeys ▸ hvd
        apply tryVals_post D cap (backtrackFuel cap pmeta fuel) ih var hvar _ st hInv ?_ hvna
        intro v hv
        have hv2 : v ∈ alGetD var st.domains [] := mem_sortBySlot.mp hv
        rcases hget : alGet? var st.domains with _ | dom
        · simp [alGetD, hget] at hv2
        · have hm := alGet?_mem hget
          have hvdom : v ∈ dom := by simpa [alGetD, hget] using hv2
          exact hInv.dsub (var, dom) hm v hvdom

/-- The invariant holds at the initial state of backtracking_search whenever
the domains dict has distinct keys (as every Python dict does). -/
theorem SInv_init (D : DomMap) (cap : List (DocId × Nat))
    (hD : (D.map Prod.fst).Nodup) :
    SInv D cap { assigned := [], capmap := [], domains := D, decOk := true } := by
  refine ⟨rfl, ?_, by simp, by simp, by simp, ?_, by simp⟩
  · intro e he v hv
    have hg : alGet? e.1 D = some e.2 := alGet?_of_mem_nodup hD he
    simpa [alGetD, hg] using hv
  · intro k
    simp [alGetD, alGet?]

/-- Every successful run satisfies the invariant at its final state, returns
exactly the final assigned dict, and that dict is complete. -/
theorem search_some (D : DomMap) (cap : List (DocId × Nat))
    (pmeta : List (PatId × Bool)) (A : Assign)
    (hD : (D.map Prod.fst).Nodup)
    (hA : backtracking_search D cap pmeta = some A) :
    SInv D cap (backtrackRun D cap pmeta).2 ∧
    A = (backtrackRun D cap pmeta).2.assigned ∧
    (backtrackRun D cap pmeta).2.assigned.length
      = (backtrackRun D cap pmeta).2.domains.length := by
  have hp := backtrack_post D cap pmeta (D.length + 1)
    { assigned := [], capmap := [], domains := D, decOk := true } (SInv_init D cap hD)
  have hrun : backtrackRun D cap pmeta = backtrackFuel cap pmeta (D.length + 1)
      { assigned := [], capmap := [], domains := D, decOk := true } := rfl
  rw [← hrun] at hp
  obtain ⟨hI, _, _, hs⟩ := hp
  have hA2 : (backtrackRun D cap pmeta).1 = some A := hA
  exact ⟨hI, (hs A hA2).1, (hs A hA2).2⟩

/-- On success the returned keys are a permutation of the domain-dict keys. -/
theorem search_keys_perm (D : DomMap) (cap : List (DocId × Nat))
    (pmeta : List (PatId × Bool)) (A : Assign)
    (hD : (D.map Prod.fst).Nodup)
    (hA : backtracking_search D cap pmeta = some A) :
    (A.map Prod.fst).Nodup ∧ (A.map Prod.fst).Perm (D.map Prod.fst) := by
  obtain ⟨hI, hAeq, hlen⟩ := search_some D cap pmeta A hD hA
  have hnd : (A.map Prod.fst).Nodup := by rw [hAeq]; exact hI.akeys
  have hsub : A.map Prod.fst ⊆ D.map Prod.fst := by
    intro x hx
    obtain ⟨e, he, hex⟩ := List.mem_map.mp hx
    rw [hAeq] at he
    exact hex ▸ (hI.asub e he).1
  have hlen2 : (D.map Prod.fst).length ≤ (A.map Prod.fst).length := by
    have h1 : (A.map Prod.fst).length = A.length := List.length_map _ _
    have h2 : (D.map Prod.fst).length = D.length := List.length_map _ _
    have h3 : ((backtrackRun D cap pmeta).2.domains.map Prod.fst).length
        = (D.map Prod.fst).length := by rw [hI.dkeys]
    have h4 : (backtrackRun D cap pmeta).2.domains.length = D.length := by
      rw [List.length_map] at h3
      rw [h3, h2]
    rw [h1, h2, hAeq, hlen, h4]
  exact ⟨hnd, (List.subperm_of_subset hnd hsub).perm_of_length_le hlen2⟩

/-- Claim C1: in every assignment returned by backtracking_search, for every
(doctor, slot) pair, the number of patients mapped to that pair is at most
the per-slot capacity of that doctor read from doctor_capacity with default
1. -/
theorem claim_C1 (D : DomMap) (cap : List (DocId × Nat))
    (pmeta : List (PatId × Bool)) (A : Assign)
    (hD : (D.map Prod.fst).Nodup)
    (hA : backtracking_search D cap pmeta = some A) (dc : DocId) (sl : Slot) :
    (A.countP fun e => decide (e.2 = (dc, sl))) ≤ alGetD dc cap 1 := by
  obtain ⟨hI, hAeq, _⟩ := search_some D cap pmeta A hD hA
  rw [hAeq, ← hI.ccount (dc, sl)]
  rcases hg : alGet? (dc, sl) (backtrackRun D cap pmeta).2.capmap with _ | c
  · simp [alGetD, hg]
  · have hb := hI.cbound ((dc, sl), c) (alGet?_mem hg)
    simpa [alGetD, hg] using hb

theorem claim_C1_witness :
    (([((1 : Nat), [((1 : Nat), "09:00")])].map Prod.fst).Nodup) ∧
    backtracking_search [(1, [(1, "09:00")])] [(1, 1)] [(1, false)]
      = some [(1, (1, "09:00"))] ∧
    ([((1 : Nat), ((1 : Nat), "09:00"))].countP fun e => decide (e.2 = ((1 : Nat), "09:00")))
      ≤ alGetD 1 [(1, 1)] 1 :=
  ⟨by decide, by decide,
    claim_C1 [(1, [(1, "09:00")])] [(1, 1)] [(1, false)] [(1, (1, "09:00"))]
      (by decide) (by decide) 1 "09:00"⟩

/-- Claim C3: a successful search returns a mapping whose keys are exactly
the domain-dict keys, each exactly once (distinct keys, a permutation of the
input keys); in particular it is never a partial mapping. -/
theorem claim_C3 (D : DomMap) (cap : List (DocId × Nat))
    (pmeta : List (PatId × Bool)) (A : Assign)
    (hD : (D.map Prod.fst).Nodup)
    (hA : backtracking_search D cap pmeta = some A) :
    (A.map Prod.fst).Nodup ∧ (A.map Prod.fst).Perm (D.map Prod.fst) :=
  search_keys_perm D cap pmeta A hD hA

theorem claim_C3_witness :
    (([((1 : Nat), [((1 : Nat), "09:00")])].map Prod.fst).Nodup) ∧
    backtracking_search [(1, [(1, "09:00")])] [(1, 2)] [(1, false)]
      = some [(1, (1, "09:00"))] ∧
    (([((1 : Nat), ((1 : Nat), "09:00"))].map Prod.fst).Nodup ∧
      ([((1 : Nat), ((1 : Nat), "09:00"))].map Prod.fst).Perm
        ([((1 : Nat), [((1 : Nat), "09:00")])].map Prod.fst)) :=
  ⟨by decide, by decide,
    claim_C3 [(1, [(1, "09:00")])] [(1, 2)] [(1, false)] [(1, (1, "09:00"))]
      (by decide) (by decide)⟩

/-- Claim C4: a patient whose built domain is empty makes the whole search
fail: backtracking_search returns none (the model is a total function, so no
crash is possible, and the none result carries no partial mapping). -/
theorem claim_C4 (D : DomMap) (cap : List (DocId × Nat))
    (pmeta : List (PatId × Bool)) (pid : PatId)
    (hD : (D.map Prod.fst).Nodup) (hmem : (pid, ([] : List Val)) ∈ D) :
    backtracking_search D cap pmeta = none := by
  rcases hr : backtracking_search D cap pmeta with _ | A
  · rfl
  · exfalso
    obtain ⟨hI, hAeq, _⟩ := search_some D cap pmeta A hD hr
    obtain ⟨_, hperm⟩ := search_keys_perm D cap pmeta A hD hr
    have hpD : pid ∈ D.map Prod.fst := List.mem_map.mpr ⟨(pid, []), hmem, rfl⟩
    have hpA : pid ∈ A.map Prod.fst := hperm.mem_iff.mpr hpD
    obtain ⟨e, he, hex⟩ := List.mem_map.mp hpA
    rw [hAeq] at he
    have hsub := (hI.asub e he).2
    have hg : alGet? e.1 D = some [] := by
      rw [hex]
      exact alGet?_of_mem_nodup hD hmem
    rw [alGetD, hg] at hsub
    simp at hsub

theorem claim_C4_witness :
    (([((1 : Nat), ([] : List Val)), (2, [(1, "09:00")])].map Prod.fst).Nodup) ∧
    ((1 : Nat), ([] : List Val)) ∈ [((1 : Nat), ([] : List Val)), (2, [(1, "09:00")])] ∧
    backtracking_search [(1, []), (2, [(1, "09:00")])] [(1, 1)] [(1, false), (2, false)]
      = none :=
  ⟨by decide, by decide,
    claim_C4 [(1, []), (2, [(1, "09:00")])] [(1, 1)] [(1, false), (2, false)] 1
      (by decide) (by decide)⟩

/-- Claim C8: over a whole run started from the empty capacity map, every
undo-step decrement finds its (doctor, slot) key present with a strictly
positive count (decOk records exactly this check and stays true, so the
get-default 1 of the decrement is dead code and the step is a plain
subtract-one-and-delete-when-zero), and every entry of the capacity map has
a strictly positive count. -/
theorem claim_C8 (D : DomMap) (cap : List (DocId × Nat))
    (pmeta : List (PatId × Bool)) (hD : (D.map Prod.fst).Nodup) :
    (backtrackRun D cap pmeta).2.decOk = true ∧
    ∀ e ∈ (backtrackRun D cap pmeta).2.capmap, 0 < e.2 := by
  have hp := backtrack_post D cap pmeta (D.length + 1)
    { assigned := [], capmap := [], domains := D, decOk := true } (SInv_init D cap hD)
  have hrun : backtrackRun D cap pmeta = backtrackFuel cap pmeta (D.length + 1)
      { assigned := [], capmap := [], domains := D, decOk := true } := rfl
  rw [← hrun] at hp
  exact ⟨hp.2.1, hp.1.cpos⟩

theorem claim_C8_witness :
    (([((1 : Nat), [((1 : Nat), "09:00")]), (2, [(1, "09:00")])].map Prod.fst).Nodup) ∧
    (backtrackRun [(1, [(1, "09:00")]), (2, [(1, "09:00")])] [(1, 1)]
      [(1, false), (2, false)]).2.decOk = true :=
  ⟨by decide,
    (claim_C8 [(1, [(1, "09:00")]), (2, [(1, "09:00")])] [(1, 1)]
      [(1, false), (2, false)] (by decide)).1⟩

/-- Keys added by the build_domains fold stay distinct. -/
theorem bd_fold_nodup (doctors : List Doctor) (slots : List Slot) :
    ∀ (pats : List Patient) (acc : DomMap), (acc.map Prod.fst).Nodup →
      (((pats.foldl (fun acc p => alSet p.id (allowedFor p doctors slots) acc) acc)).map
        Prod.fst).Nodup := by
  intro pats
  induction pats with
  | nil => intro acc h; simpa using h
  | cons q rest ih =>
    intro acc h
    exact ih _ (map_fst_alSet_nodup _ h)

theorem build_domains_keys_nodup (patients : List Patient) (doctors : List Doctor)
    (slots : List Slot) : ((build_domains patients doctors slots).map Prod.fst).Nodup :=
  bd_fold_nodup doctors slots patients [] (by simp)

/-- A fold step for a patient id never seen later leaves that entry alone. -/
theorem bd_fold_untouched (doctors : List Doctor) (slots : List Slot) :
    ∀ (pats : List Patient) (acc : DomMap) (k : PatId), k ∉ pats.map Patient.id →
      alGet? k (pats.foldl (fun acc p => alSet p.id (allowedFor p doctors slots) acc) acc)
        = alGet? k acc := by
  intro pats
  induction pats with
  | nil => intro acc k _; rfl
  | cons q rest ih =>
    intro acc k hk
    simp only [List.map_cons, List.mem_cons, not_or] at hk
    rw [List.foldl_cons, ih _ k hk.2, alGet?_alSet_ne _ (fun h => hk.1 h)]

/-- With distinct patient ids, build_domains maps each patient id to exactly
the allowed list computed for that patient. -/
theorem build_domains_get (doctors : List Doctor) (slots : List Slot) :
    ∀ (pats : List Patient) (acc : DomMap) (p : Patient), p ∈ pats →
      (pats.map Patient.id).Nodup →
      alGet? p.id (pats.foldl (fun acc p => alSet p.id (allowedFor p doctors slots) acc) acc)
        = some (allowedFor p doctors slots) := by
  intro pats
  induction pats with
  | nil => simp
  | cons q rest ih =>
    intro acc p hp hnd
    simp only [List.map_cons, List.nodup_cons] at hnd
    rcases List.mem_cons.mp hp with hp | hp
    · subst hp
      have hnotin : p.id ∉ rest.map Patient.id := hnd.1
      rw [List.foldl_cons, bd_fold_untouched doctors slots rest _ p.id hnotin,
        alGet?_alSet_self]
    · exact ih _ p hp hnd.2

/-- Membership in the allowed list of one patient decomposes into an
eligible doctor and a non-skipped slot. -/
theorem allowedFor_mem {p : Patient} {doctors : List Doctor} {slots : List Slot}
    {v : Val} (h : v ∈ allowedFor p doctors slots) :
    ∃ d ∈ doctors, v.1 = d.id ∧ doctorSkipped p d = false ∧
      v.2 ∈ slots ∧ slotSkipped p v.2 = false := by
  unfold allowedFor at h
  obtain ⟨d, hd, hv⟩ := List.mem_flatMap.mp h
  by_cases hs : doctorSkipped p d
  · rw [if_pos hs] at hv
    simp at hv
  · rw [if_neg hs] at hv
    obtain ⟨s, hsm, hse⟩ := List.mem_map.mp hv
    obtain ⟨hs1, hs2⟩ := List.mem_filter.mp hsm
    subst hse
    exact ⟨d, hd, rfl, by simpa using hs, hs1, by simpa using hs2⟩

/-- Claim C2: in every successful run over build_domains output (with the
distinct patient ids a database primary key guarantees), a patient who needs
a specialist with a truthy required specialty is assigned a doctor whose
specialty is non-empty and equal case-insensitively to the requirement, and
a patient with a non-empty preferred-slot list is assigned a member of it. -/
theorem claim_C2 (patients : List Patient) (doctors : List Doctor)
    (slots : List Slot) (cap : List (DocId × Nat)) (pmeta : List (PatId × Bool))
    (A : Assign) (hP : (patients.map Patient.id).Nodup)
    (hA : backtracking_search (build_domains patients doctors slots) cap pmeta = some A) :
    ∀ p ∈ patients, ∀ dc sl, (p.id, ((dc : DocId), (sl : Slot))) ∈ A →
      ((p.needs_specialist = true → optTruthy p.specialty_required = true →
        ∃ d ∈ doctors, d.id = dc ∧ d.specialty.data.isEmpty = false ∧
          pyLowerEq d.specialty (p.specialty_required.getD "") = true) ∧
       ((prefListOf p).isEmpty = false → sl ∈ prefListOf p)) := by
  intro p hp dc sl hmem
  obtain ⟨hI, hAeq, _⟩ := search_some (build_domains patients doctors slots) cap pmeta A
    (build_domains_keys_nodup patients doctors slots) hA
  rw [hAeq] at hmem
  have hsub := (hI.asub (p.id, (dc, sl)) hmem).2
  have hg : alGet? p.id (build_domains patients doctors slots)
      = some (allowedFor p doctors slots) :=
    build_domains_get doctors slots patients [] p hp hP
  rw [alGetD, hg] at hsub
  obtain ⟨d, hd, hid, hskip, hslot, hsl⟩ := allowedFor_mem hsub
  constructor
  · intro hn ht
    refine ⟨d, hd, hid.symm, ?_, ?_⟩
    · unfold doctorSkipped at hskip
      rw [hn, ht] at hskip
      simp only [Bool.true_and] at hskip
      rcases Bool.or_eq_false_iff.mp hskip with ⟨h1, _⟩
      exact h1
    · unfold doctorSkipped at hskip
      rw [hn, ht] at hskip
      simp only [Bool.true_and] at hskip
      rcases Bool.or_eq_false_iff.mp hskip with ⟨_, h2⟩
      simpa using h2
  · intro hne
    unfold slotSkipped at hsl
    rw [hne] at hsl
    simp only [Bool.not_false, Bool.true_and, Bool.not_eq_false] at hsl
    simpa using hsl

theorem claim_C2_witness :
    (([⟨1, true, some "Cardiology", false, some "09:30"⟩].map Patient.id).Nodup) ∧
    backtracking_search
      (build_domains [⟨1, true, some "Cardiology", false, some "09:30"⟩]
        [⟨1, "cardiology", 1⟩] ["09:00", "09:30"]) [(1, 1)] [(1, false)]
      = some [(1, (1, "09:30"))] ∧
    ((⟨1, true, some "Cardiology", false, some "09:30"⟩ : Patient).id,
      ((1 : DocId), ("09:30" : Slot))) ∈ [((1 : Nat), ((1 : Nat), "09:30"))] ∧
    (((⟨1, true, some "Cardiology", false, some "09:30"⟩ : Patient).needs_specialist = true →
        optTruthy (⟨1, true, some "Cardiology", false, some "09:30"⟩ : Patient).specialty_required = true →
        ∃ d ∈ [(⟨1, "cardiology", 1⟩ : Doctor)], d.id = 1 ∧ d.specialty.data.isEmpty = false ∧
          pyLowerEq d.specialty
            ((⟨1, true, some "Cardiology", false, some "09:30"⟩ : Patient).specialty_required.getD "") = true) ∧
      ((prefListOf ⟨1, true, some "Cardiology", false, some "09:30"⟩).isEmpty = false →
        "09:30" ∈ prefListOf ⟨1, true, some "Cardiology", false, some "09:30"⟩)) :=
  ⟨by decide, by decide, by decide,
    claim_C2 [⟨1, true, some "Cardiology", false, some "09:30"⟩] [⟨1, "cardiology", 1⟩]
      ["09:00", "09:30"] [(1, 1)] [(1, false)] [(1, (1, "09:30"))]
      (by decide) (by decide)
      ⟨1, true, some "Cardiology", false, some "09:30"⟩ (by decide) 1 "09:30" (by decide)⟩

/-- Claim C7: one doctor (capacity 1, no specialty), one unconstrained
patient, two slots: the search succeeds and places the patient at the
chronologically first slot with that doctor, because candidate values are
tried in ascending-slot order. -/
theorem claim_C7 :
    backtracking_search
      (build_domains [⟨1, false, none, false, none⟩] [⟨1, "", 1⟩] ["09:00", "09:30"])
      [(1, 1)] [(1, false)]
      = some [(1, (1, "09:00"))] := by
  decide

/-- Claim C10: a patient with needs_specialist set but a missing or empty
specialty_required is treated as needing no specialist by build_domains: the
allowed list is the one computed with the flag cleared, and no doctor is
skipped by the specialty filter. -/
theorem claim_C10 (p : Patient) (doctors : List Doctor) (slots : List Slot)
    (hn : p.needs_specialist = true) (hs : optTruthy p.specialty_required = false) :
    allowedFor p doctors slots
      = allowedFor { p with needs_specialist := false } doctors slots ∧
    ∀ d ∈ doctors, doctorSkipped p d = false := by
  have hsk : ∀ d, doctorSkipped p d = false := by
    intro d
    unfold doctorSkipped
    rw [hn, hs]
    simp
  have hsk2 : ∀ d, doctorSkipped { p with needs_specialist := false } d = false := by
    intro d
    unfold doctorSkipped
    simp
  refine ⟨?_, fun d _ => hsk d⟩
  have hslot : ∀ s, slotSkipped { p with needs_specialist := false } s = slotSkipped p s :=
    fun s => rfl
  unfold allowedFor
  simp only [hsk, hsk2, hslot, if_false]

theorem claim_C10_witness :
    ((⟨1, true, none, false, none⟩ : Patient).needs_specialist = true) ∧
    (optTruthy (⟨1, true, none, false, none⟩ : Patient).specialty_required = false) ∧
    allowedFor ⟨1, true, none, false, none⟩ [⟨1, "Cardiology", 1⟩] ["09:00"]
      = allowedFor { (⟨1, true, none, false, none⟩ : Patient) with needs_specialist := false }
          [⟨1, "Cardiology", 1⟩] ["09:00"] :=
  ⟨by decide, by decide,
    (claim_C10 ⟨1, true, none, false, none⟩ [⟨1, "Cardiology", 1⟩] ["09:00"]
      (by decide) (by decide)).1⟩

/-- Per-entry effect of forward checking: an entry keeps its old domain or
gets it filtered by the keep test. -/
theorem fc_get_cases (cap : List (DocId × Nat)) (capmap : CapMap) (asg : Assign) :
    ∀ (ds : DomMap) (pid : PatId) (dom : List Val), (ds.map Prod.fst).Nodup →
      (pid, dom) ∈ ds → ∀ dom2, alGet? pid (fc cap capmap asg ds).2.1 = some dom2 →
      dom2 = dom ∨ dom2 = dom.filter (fcKeep cap capmap) := by
  intro ds
  induction ds with
  | nil => simp [fc, alGet?]
  | cons f rest ih =>
    intro pid dom hnd hmem dom2 hget
    simp only [List.map_cons, List.nodup_cons] at hnd
    by_cases hpf : pid = f.1
    · have hdom : dom = f.2 := by
        rcases List.mem_cons.mp hmem with h | h
        · rw [← h]
        · exact absurd (hpf ▸ List.mem_map.mpr ⟨(pid, dom), h, rfl⟩) hnd.1
      by_cases h1 : alContains f.1 asg
      · simp only [fc, if_pos h1, alGet?, if_pos hpf.symm] at hget
        injection hget with hget
        exact Or.inl (hget.symm.trans hdom.symm)
      · by_cases h2 : (f.2.filter (fcKeep cap capmap)).isEmpty
        · simp only [fc, if_neg h1, if_pos h2, alGet?, if_pos hpf.symm] at hget
          injection hget with hget
          exact Or.inl (hget.symm.trans hdom.symm)
        · simp only [fc, if_neg h1, if_neg h2, alGet?, if_pos hpf.symm] at hget
          injection hget with hget
          rw [hdom]
          exact Or.inr hget.symm
    · have hne : ¬ f.1 = pid := fun h => hpf h.symm
      have hmem2 : (pid, dom) ∈ rest := by
        rcases List.mem_cons.mp hmem with h | h
        · exact absurd (by rw [← h]) hpf
        · exact h
      by_cases h1 : alContains f.1 asg
      · simp only [fc, if_pos h1, alGet?, if_neg hne] at hget
        exact ih pid dom hnd.2 hmem2 dom2 hget
      · by_cases h2 : (f.2.filter (fcKeep cap capmap)).isEmpty
        · simp only [fc, if_neg h1, if_pos h2, alGet?, if_neg hne] at hget
          rw [alGet?_of_mem_nodup hnd.2 hmem2] at hget
          injection hget with hget
          exact Or.inl hget.symm
        · simp only [fc, if_neg h1, if_neg h2, alGet?, if_neg hne] at hget
          exact ih pid dom hnd.2 hmem2 dom2 hget

/-- The snapshot keys produced by forward checking are distinct. -/
theorem fc_snap_keys_nodup (cap : List (DocId × Nat)) (capmap : CapMap) (asg : Assign) :
    ∀ ds : DomMap, (ds.map Prod.fst).Nodup →
      (((fc cap capmap asg ds).2.2).map Prod.fst).Nodup := by
  intro ds
  induction ds with
  | nil => simp [fc]
  | cons f rest ih =>
    intro hnd
    simp only [List.map_cons, List.nodup_cons] at hnd
    by_cases h1 : alContains f.1 asg
    · simp only [fc, if_pos h1]
      exact ih hnd.2
    · by_cases h2 : (f.2.filter (fcKeep cap capmap)).isEmpty
      · simp only [fc, if_neg h1, if_pos h2]
        simp
      · simp only [fc, if_neg h1, if_neg h2, List.map_cons, List.nodup_cons]
        refine ⟨?_, ih hnd.2⟩
        intro hin
        obtain ⟨e, he, hex⟩ := List.mem_map.mp hin
        exact hnd.1 (hex ▸ fc_snap_keys cap capmap asg rest e he)

/-- Per-entry effect of a forward-checking pass that did not fail: assigned
entries are untouched and absent from the snapshot; unassigned entries are
filtered, with their removed values recorded in the snapshot. -/
theorem fc_nofail_get (cap : List (DocId × Nat)) (capmap : CapMap) (asg : Assign) :
    ∀ (ds : DomMap) (pid : PatId) (dom : List Val),
      (fc cap capmap asg ds).1 = false → (ds.map Prod.fst).Nodup → (pid, dom) ∈ ds →
      (alContains pid asg = true →
        alGet? pid (fc cap capmap asg ds).2.1 = some dom ∧
        pid ∉ ((fc cap capmap asg ds).2.2).map Prod.fst) ∧
      (alContains pid asg = false →
        alGet? pid (fc cap capmap asg ds).2.1 = some (dom.filter (fcKeep cap capmap)) ∧
        (pid, dom.filter fun v => !fcKeep cap capmap v) ∈ (fc cap capmap asg ds).2.2) := by
  intro ds
  induction ds with
  | nil => simp
  | cons f rest ih =>
    intro pid dom hfail hnd hmem
    simp only [List.map_cons, List.nodup_cons] at hnd
    by_cases hpf : pid = f.1
    · have hdom : dom = f.2 := by
        rcases List.mem_cons.mp hmem with h | h
        · rw [← h]
        · exact absurd (hpf ▸ List.mem_map.mpr ⟨(pid, dom), h, rfl⟩) hnd.1
      by_cases h1 : alContains f.1 asg
      · constructor
        · intro _
          constructor
          · simp only [fc, if_pos h1, alGet?, if_pos hpf.symm, hdom]
          · simp only [fc, if_pos h1]
            intro hin
            obtain ⟨e, he, hex⟩ := List.mem_map.mp hin
            exact hnd.1 (hpf ▸ hex ▸ fc_snap_keys cap capmap asg rest e he)
        · intro hfalse
          rw [hpf, h1] at hfalse
          simp at hfalse
      · by_cases h2 : (f.2.filter (fcKeep cap capmap)).isEmpty
        · exfalso
          simp only [fc, if_neg h1, if_pos h2] at hfail
          simp at hfail
        · constructor
          · intro htrue
            rw [hpf] at htrue
            exact absurd htrue h1
          · intro _
            constructor
            · simp only [fc, if_neg h1, if_neg h2, alGet?, if_pos hpf.symm, hdom]
            · simp only [fc, if_neg h1, if_neg h2]
              rw [hdom, hpf]
              exact List.mem_cons_self _ _
    · have hne : ¬ f.1 = pid := fun h => hpf h.symm
      have hmem2 : (pid, dom) ∈ rest := by
        rcases List.mem_cons.mp hmem with h | h
        · exact absurd (by rw [← h]) hpf
        · exact h
      by_cases h1 : alContains f.1 asg
      · have hfail2 : (fc cap capmap asg rest).1 = false := by
          simpa only [fc, if_pos h1] using hfail
        have hih := ih pid dom hfail2 hnd.2 hmem2
        constructor
        · intro htrue
          refine ⟨?_, ?_⟩
          · simp only [fc, if_pos h1, alGet?, if_neg hne]
            exact (hih.1 htrue).1
          · simp only [fc, if_pos h1]
            exact (hih.1 htrue).2
        · intro hfalse
          refine ⟨?_, ?_⟩
          · simp only [fc, if_pos h1, alGet?, if_neg hne]
            exact (hih.2 hfalse).1
          · simp only [fc, if_pos h1]
            exact (hih.2 hfalse).2
      · by_cases h2 : (f.2.filter (fcKeep cap capmap)).isEmpty
        · exfalso
          simp only [fc, if_neg h1, if_pos h2] at hfail
          simp at hfail
        · have hfail2 : (fc cap capmap asg rest).1 = false := by
            simpa only [fc, if_neg h1, if_neg h2] using hfail
          have hih := ih pid dom hfail2 hnd.2 hmem2
          constructor
          · intro htrue
            refine ⟨?_, ?_⟩
            · simp only [fc, if_neg h1, if_neg h2, alGet?, if_neg hne]
              exact (hih.1 htrue).1
            · simp only [fc, if_neg h1, if_neg h2, List.map_cons, List.mem_cons]
              intro hor
              rcases hor with hor | hor
              · exact hpf hor
              · exact (hih.1 htrue).2 hor
          · intro hfalse
            refine ⟨?_, ?_⟩
            · simp only [fc, if_neg h1, if_neg h2, alGet?, if_neg hne]
              exact (hih.2 hfalse).1
            · simp only [fc, if_neg h1, if_neg h2]
              exact List.mem_cons_of_mem _ (hih.2 hfalse).2

/-- Restore leaves entries outside the snapshot alone. -/
theorem restore_get_notin :
    ∀ (snap : List (PatId × List Val)) (doms : DomMap) (pid : PatId),
      pid ∉ snap.map Prod.fst →
      alGet? pid (restoreDoms doms snap) = alGet? pid doms := by
  intro snap
  induction snap with
  | nil => intro doms pid _; rfl
  | cons f snap ih =>
    intro doms pid h
    simp only [List.map_cons, List.mem_cons, not_or] at h
    simp only [restoreDoms]
    by_cases hf : f.2.isEmpty
    · rw [if_pos hf]
      exact ih _ pid h.2
    · rw [if_neg hf, ih _ pid h.2, alGet?_alSet_ne _ h.1]

/-- Per-entry effect of restore on a snapshot entry with distinct snapshot
keys: a non-empty removed list is appended to the current domain of that
patient and the result re-sorted by slot. -/
theorem restore_get_in :
    ∀ (snap : List (PatId × List Val)) (doms : DomMap) (pid : PatId) (rm : List Val),
      (snap.map Prod.fst).Nodup → (pid, rm) ∈ snap →
      alGet? pid (restoreDoms doms snap)
        = if rm.isEmpty then alGet? pid doms
          else some (sortBySlot (alGetD pid doms [] ++ rm)) := by
  intro snap
  induction snap with
  | nil => simp
  | cons f snap ih =>
    intro doms pid rm hnd hmem
    simp only [List.map_cons, List.nodup_cons] at hnd
    by_cases hpf : pid = f.1
    · have hrm : rm = f.2 := by
        rcases List.mem_cons.mp hmem with h | h
        · rw [← h]
        · exact absurd (hpf ▸ List.mem_map.mpr ⟨(pid, rm), h, rfl⟩) hnd.1
      have hnotin : pid ∉ snap.map Prod.fst := by
        rw [hpf]; exact hnd.1
      simp only [restoreDoms]
      by_cases hf : f.2.isEmpty
      · rw [if_pos hf, restore_get_notin snap doms pid hnotin, hrm, if_pos hf]
      · rw [if_neg hf, restore_get_notin snap _ pid hnotin, hrm, if_neg hf, hpf,
          alGet?_alSet_self]
    · have hmem2 : (pid, rm) ∈ snap := by
        rcases List.mem_cons.mp hmem with h | h
        · exact absurd (by rw [← h]) hpf
        · exact h
      simp only [restoreDoms]
      by_cases hf : f.2.isEmpty
      · rw [if_pos hf]
        exact ih _ pid rm hnd.2 hmem2
      · rw [if_neg hf, ih _ pid rm hnd.2 hmem2, alGet?_alSet_ne _ hpf,
          alGetD_alSet_ne _ hpf]

/-- Counterexample to claim C5 as stated: undoing a tentative placement is
not the identity on the domain state.  Two scenarios over one doctor of
capacity 1.  First (two patients, one slot): placing patient 1 empties
patient 2's domain during propagation; the break leaves patient 2's entry
unreplaced, yet the restore step appends the removed values to it, so after
the failed run patient 2's domain holds its single value twice.  Second
(three patients, two slots): the placement of patient 3 propagates WITHOUT
failure (the fc failure flag is false), the recursive search below it fails
and corrupts patient 2's domain in exactly that way, and after patient 3's
placement is undone patient 2 holds (09:00, 09:00, 09:30) — not even a
permutation of its pre-placement domain (09:00, 09:30).  So restoration
fails on the propagation-failure path and, through the recursion, also when
the undone placement's own propagation succeeded. -/
theorem claim_C5_counterexample :
    ((backtrackRun [(1, [(1, "09:00")]), (2, [(1, "09:00")])] [(1, 1)]
      [(1, false), (2, false)]).1 = none ∧
    (backtrackRun [(1, [(1, "09:00")]), (2, [(1, "09:00")])] [(1, 1)]
      [(1, false), (2, false)]).2.domains
      = [(1, [(1, "09:00")]), (2, [(1, "09:00"), (1, "09:00")])] ∧
    (backtrackRun [(1, [(1, "09:00")]), (2, [(1, "09:00")])] [(1, 1)]
      [(1, false), (2, false)]).2.domains
      ≠ [(1, [(1, "09:00")]), (2, [(1, "09:00")])]) ∧
    ((fc [(1, 1)] [((1, "09:30"), 1)] [(3, (1, "09:30"))]
      [(1, [(1, "09:00"), (1, "09:30")]), (2, [(1, "09:00"), (1, "09:30")]),
        (3, [(1, "09:30")])]).1 = false ∧
    (backtrackRun
      [(1, [(1, "09:00"), (1, "09:30")]), (2, [(1, "09:00"), (1, "09:30")]),
        (3, [(1, "09:30")])]
      [(1, 1)] [(1, false), (2, false), (3, false)]).1 = none ∧
    (backtrackRun
      [(1, [(1, "09:00"), (1, "09:30")]), (2, [(1, "09:00"), (1, "09:30")]),
        (3, [(1, "09:30")])]
      [(1, 1)] [(1, false), (2, false), (3, false)]).2.domains
      = [(1, [(1, "09:00"), (1, "09:30")]),
         (2, [(1, "09:00"), (1, "09:00"), (1, "09:30")]), (3, [(1, "09:30")])] ∧
    ¬ ([((1 : Nat), "09:00"), (1, "09:00"), (1, "09:30")].Perm
        [((1 : Nat), "09:00"), (1, "09:30")])) := by
  exact ⟨⟨by decide, by decide, by decide⟩, by decide, by decide, by decide, by decide⟩

/-- Claim C5 (amended): during search each patient's domain only shrinks
under propagation (each forward-checked domain is an order-preserving
sublist of the previous one), and every domain value at any invariant state
is drawn from that patient's initial domain.  When placements are undone on
a failing branch, the assignment and capacity maps are returned exactly to
their values from before that branch — but the domain state is not restored
exactly: the removed values are appended to the patient's current (possibly
already corrupted) domain and stably re-sorted by slot, which can leave
duplicated values both when this placement's propagation fails at a patient
and, through a failing recursive search below it, even when its own
propagation succeeded, as the counterexample shows. -/
theorem claim_C5 :
    (∀ (cap : List (DocId × Nat)) (capmap : CapMap) (asg : Assign) (ds : DomMap),
      ∀ e ∈ (fc cap capmap asg ds).2.1, ∃ dom, (e.1, dom) ∈ ds ∧ e.2.Sublist dom) ∧
    (∀ (D : DomMap) (cap : List (DocId × Nat)) (pmeta : List (PatId × Bool))
      (fuel : Nat) (st : SState), SInv D cap st →
      (backtrackFuel cap pmeta fuel st).1 = none →
      (backtrackFuel cap pmeta fuel st).2.assigned = st.assigned ∧
      (backtrackFuel cap pmeta fuel st).2.capmap = st.capmap) ∧
    (∀ (D : DomMap) (cap : List (DocId × Nat)) (pmeta : List (PatId × Bool))
      (fuel : Nat) (st : SState), SInv D cap st →
      ∀ e ∈ (backtrackFuel cap pmeta fuel st).2.domains, ∀ v ∈ e.2,
        v ∈ alGetD e.1 D []) := by
  refine ⟨fun cap capmap asg ds => fc_sub cap capmap asg ds, ?_, ?_⟩
  · intro D cap pmeta fuel st hInv hnone
    exact (backtrack_post D cap pmeta fuel st hInv).2.2.1 hnone
  · intro D cap pmeta fuel st hInv
    exact ((backtrack_post D cap pmeta fuel st hInv).1).dsub

theorem claim_C5_witness :
    SInv [(1, [(1, "09:00")]), (2, [(1, "09:00")])] [(1, 1)]
      { assigned := [], capmap := [],
        domains := [(1, [(1, "09:00")]), (2, [(1, "09:00")])], decOk := true } ∧
    (backtrackFuel [(1, 1)] [(1, false), (2, false)] 3
      { assigned := [], capmap := [],
        domains := [(1, [(1, "09:00")]), (2, [(1, "09:00")])], decOk := true }).1 = none ∧
    (backtrackFuel [(1, 1)] [(1, false), (2, false)] 3
      { assigned := [], capmap := [],
        domains := [(1, [(1, "09:00")]), (2, [(1, "09:00")])], decOk := true }).2.assigned
      = ([] : Assign) ∧
    (backtrackFuel [(1, 1)] [(1, false), (2, false)] 3
      { assigned := [], capmap := [],
        domains := [(1, [(1, "09:00")]), (2, [(1, "09:00")])], decOk := true }).2.capmap
      = ([] : CapMap) :=
  ⟨SInv_init [(1, [(1, "09:00")]), (2, [(1, "09:00")])] [(1, 1)] (by decide),
   by decide,
   (claim_C5.2.1 [(1, [(1, "09:00")]), (2, [(1, "09:00")])] [(1, 1)]
      [(1, false), (2, false)] 3
      { assigned := [], capmap := [],
        domains := [(1, [(1, "09:00")]), (2, [(1, "09:00")])], decOk := true }
      (SInv_init [(1, [(1, "09:00")]), (2, [(1, "09:00")])] [(1, 1)] (by decide))
      (by decide)).1,
   (claim_C5.2.1 [(1, [(1, "09:00")]), (2, [(1, "09:00")])] [(1, 1)]
      [(1, false), (2, false)] 3
      { assigned := [], capmap := [],
        domains := [(1, [(1, "09:00")]), (2, [(1, "09:00")])], decOk := true }
      (SInv_init [(1, [(1, "09:00")]), (2, [(1, "09:00")])] [(1, 1)] (by decide))
      (by decide)).2⟩

/-- The running-minimum loop returns the first element of acc :: pool that
attains the minimum domain length: everything before it is strictly longer,
everything after it at least as long. -/
theorem selectLoop_char (d : DomMap) :
    ∀ (l : List PatId) (b : PatId),
      ∃ r pre post, selectLoop d l (some (b, dlen d b)) = some (r, dlen d r) ∧
        b :: l = pre ++ r :: post ∧
        (∀ u ∈ pre, dlen d r < dlen d u) ∧ (∀ u ∈ post, dlen d r ≤ dlen d u) := by
  intro l
  induction l with
  | nil =>
    intro b
    exact ⟨b, [], [], rfl, rfl, by simp, by simp⟩
  | cons v rest ih =>
    intro b
    by_cases hlt : dlen d v < dlen d b
    · obtain ⟨r, pre, post, hsel, hdec, hpre, hpost⟩ := ih v
      have hsel2 : selectLoop d (v :: rest) (some (b, dlen d b)) = some (r, dlen d r) := by
        simp only [selectLoop, if_pos hlt]
        exact hsel
      have hrlev : dlen d r ≤ dlen d v := by
        cases pre with
        | nil =>
          simp only [List.nil_append] at hdec
          injection hdec with h1 _
          rw [h1]
        | cons p ps =>
          simp only [List.cons_append] at hdec
          injection hdec with h1 _
          have := hpre p (List.mem_cons_self _ _)
          rw [← h1] at this
          exact Nat.le_of_lt this
      refine ⟨r, b :: pre, post, hsel2, ?_, ?_, hpost⟩
      · rw [List.cons_append, ← hdec]
      · intro u hu
        rcases List.mem_cons.mp hu with hu | hu
        · rw [hu]
          exact Nat.lt_of_le_of_lt hrlev hlt
        · exact hpre u hu
    · obtain ⟨r, pre, post, hsel, hdec, hpre, hpost⟩ := ih b
      have hsel2 : selectLoop d (v :: rest) (some (b, dlen d b)) = some (r, dlen d r) := by
        simp only [selectLoop, if_neg hlt]
        exact hsel
      have hble : dlen d b ≤ dlen d v := Nat.le_of_not_lt hlt
      cases pre with
      | nil =>
        simp only [List.nil_append] at hdec
        injection hdec with h1 h2
        refine ⟨r, [], v :: rest, hsel2, by simp [h1], ?_, ?_⟩
        · simp
        · intro u hu
          rcases List.mem_cons.mp hu with hu | hu
          · rw [hu, ← h1]
            exact hble
          · rw [← h1]
            rw [← h1] at hpost
            exact hpost u (h2 ▸ hu)
      | cons p ps =>
        simp only [List.cons_append] at hdec
        injection hdec with h1 h2
        refine ⟨r, b :: v :: ps, post, hsel2, ?_, ?_, hpost⟩
        · rw [h2]
          simp
        · intro u hu
          have hrb : dlen d r < dlen d b := by
            have := hpre p (List.mem_cons_self _ _)
            rw [← h1] at this
            exact this
          rcases List.mem_cons.mp hu with hu | hu
          · rw [hu]
            exact hrb
          · rcases List.mem_cons.mp hu with hu | hu
            · rw [hu]
              exact Nat.lt_of_lt_of_le hrb hble
            · exact hpre u (List.mem_cons_of_mem _ hu)

/-- The candidate pool is empty exactly when no unassigned patient remains. -/
theorem pool_empty_iff (d : DomMap) (a : Assign) (m : List (PatId × Bool)) :
    poolOf d a m = [] ↔ unassignedOf d a = [] := by
  simp only [poolOf]
  by_cases he : ((unassignedOf d a).filter fun v => alGetD v m false).isEmpty
  · rw [if_pos he]
  · rw [if_neg he]
    constructor
    · intro h
      exact absurd (by rw [h]; rfl) he
    · intro h
      exact absurd (by rw [h]; rfl) he

/-- Claim C6: select_unassigned_var returns none exactly when no patient is
unassigned; on a some result the chosen patient is a member of the pool
(unassigned emergencies if any exist, else all unassigned) such that every
pool member before it has a strictly larger current domain and every member
after it one at least as large — the fewest-remaining-values patient,
ties broken in favour of the first encountered. -/
theorem claim_C6 (domains : DomMap) (assigned : Assign) (pmeta : List (PatId × Bool)) :
    (select_unassigned_var domains assigned pmeta = none
      ↔ unassignedOf domains assigned = []) ∧
    ∀ v, select_unassigned_var domains assigned pmeta = some v →
      ∃ pre post, poolOf domains assigned pmeta = pre ++ v :: post ∧
        (∀ u ∈ pre, dlen domains v < dlen domains u) ∧
        (∀ u ∈ post, dlen domains v ≤ dlen domains u) := by
  constructor
  · constructor
    · intro h
      unfold select_unassigned_var at h
      have hnone : selectLoop domains (poolOf domains assigned pmeta) none = none := by
        rcases hx : selectLoop domains (poolOf domains assigned pmeta) none with _ | x
        · rfl
        · rw [hx] at h
          simp at h
      exact (pool_empty_iff domains assigned pmeta).mp
        ((selectLoop_none_iff domains _).mp hnone)
    · intro h
      unfold select_unassigned_var
      rw [(pool_empty_iff domains assigned pmeta).mpr h]
      rfl
  · intro v hv
    unfold select_unassigned_var at hv
    rcases hpool : poolOf domains assigned pmeta with _ | ⟨p0, rest⟩
    · rw [hpool] at hv
      simp [selectLoop] at hv
    · rw [hpool] at hv
      obtain ⟨r, pre, post, hsel, hdec, hpre, hpost⟩ := selectLoop_char domains rest p0
      have hv2 : r = v := by
        simp only [selectLoop] at hv
        rw [hsel] at hv
        simpa using hv
      subst hv2
      exact ⟨pre, post, hdec, hpre, hpost⟩

theorem claim_C6_witness :
    select_unassigned_var [((1 : Nat), [((1 : Nat), "a"), (1, "b")]), (2, [(1, "a")])] [] []
      = some 2 ∧
    ∃ pre post,
      poolOf [((1 : Nat), [((1 : Nat), "a"), (1, "b")]), (2, [(1, "a")])] [] []
        = pre ++ 2 :: post ∧
      (∀ u ∈ pre,
        dlen [((1 : Nat), [((1 : Nat), "a"), (1, "b")]), (2, [(1, "a")])] 2
          < dlen [((1 : Nat), [((1 : Nat), "a"), (1, "b")]), (2, [(1, "a")])] u) ∧
      (∀ u ∈ post,
        dlen [((1 : Nat), [((1 : Nat), "a"), (1, "b")]), (2, [(1, "a")])] 2
          ≤ dlen [((1 : Nat), [((1 : Nat), "a"), (1, "b")]), (2, [(1, "a")])] u) :=
  ⟨by decide,
    (claim_C6 [((1 : Nat), [((1 : Nat), "a"), (1, "b")]), (2, [(1, "a")])] [] []).2 2
      (by decide)⟩

/-!
Frame argument for the heap-level model: the engine's in-place list
operations only ever touch cells at indices allocated at or after the copy,
so the prefix of the heap holding the caller's list objects never changes.
-/

theorem refsGe_get {n : Nat} {refs : DomRefs} (h : RefsGe n refs) {k : PatId}
    (hk : k ∈ refs.map Prod.fst) : n ≤ alGetD k refs 0 := by
  rcases hg : alGet? k refs with _ | c
  · exact absurd hk (alGet?_eq_none_iff.mp hg)
  · have := h (k, c) (alGet?_mem hg)
    simpa [alGetD, hg] using this

theorem take_set_of_le {α : Type} :
    ∀ (l : List α) (i : Nat) (a : α) (n : Nat), n ≤ i →
      (l.set i a).take n = l.take n := by
  intro l
  induction l with
  | nil => intro i a n _; simp
  | cons x xs ih =>
    intro i a n hn
    cases i with
    | zero =>
      cases n with
      | zero => simp
      | succ m => exact absurd hn (by simp)
    | succ j =>
      cases n with
      | zero => simp
      | succ m =>
        simp only [List.set, List.take]
        rw [ih j a m (Nat.le_of_succ_le_succ hn)]

/-- Forward checking over the store: references stay above the bound, dict
keys are unchanged, the store only grows, the heap prefix below the bound is
untouched, and snapshot keys come from the dict. -/
theorem fcS_frame (n : Nat) (cap : List (DocId × Nat)) (capmap : CapMap) (asg : Assign) :
    ∀ (refs : DomRefs) (store : Store), RefsGe n refs → n ≤ store.length →
      RefsGe n (fcS cap capmap asg refs store).2.1 ∧
      ((fcS cap capmap asg refs store).2.1).map Prod.fst = refs.map Prod.fst ∧
      n ≤ (fcS cap capmap asg refs store).2.2.1.length ∧
      ((fcS cap capmap asg refs store).2.2.1).take n = store.take n ∧
      (∀ e ∈ (fcS cap capmap asg refs store).2.2.2, e.1 ∈ refs.map Prod.fst) := by
  intro refs
  induction refs with
  | nil =>
    intro store _ hs
    exact ⟨by intro e he; simp [fcS] at he, by simp [fcS], by simpa [fcS] using hs,
      by simp [fcS], by simp [fcS]⟩
  | cons f rest ih =>
    intro store hr hs
    have hrf : n ≤ f.2 := hr f (List.mem_cons_self _ _)
    have hrr : RefsGe n rest := fun e he => hr e (List.mem_cons_of_mem _ he)
    by_cases h1 : alContains f.1 asg
    · obtain ⟨a1, a2, a3, a4, a5⟩ := ih store hrr hs
      refine ⟨?_, ?_, ?_, ?_, ?_⟩
      · intro e he
        simp only [fcS, if_pos h1] at he
        rcases List.mem_cons.mp he with he | he
        · rw [he]; exact hrf
        · exact a1 e he
      · simp only [fcS, if_pos h1, List.map_cons]
        rw [a2]
      · simpa only [fcS, if_pos h1] using a3
      · simpa only [fcS, if_pos h1] using a4
      · intro e he
        simp only [fcS, if_pos h1] at he
        exact List.mem_cons_of_mem _ (a5 e he)
    · by_cases h2 : ((getCell store f.2).filter (fcKeep cap capmap)).isEmpty
      · refine ⟨?_, ?_, ?_, ?_, ?_⟩
        · intro e he
          simp only [fcS, if_neg h1, if_pos h2] at he
          exact hr e he
        · simp only [fcS, if_neg h1, if_pos h2]
        · simpa only [fcS, if_neg h1, if_pos h2] using hs
        · simp only [fcS, if_neg h1, if_pos h2]
        · intro e he
          simp only [fcS, if_neg h1, if_pos h2, List.mem_singleton] at he
          rw [he]
          exact List.mem_cons_self _ _
      · have hs2 : n ≤ (store ++ [(getCell store f.2).filter (fcKeep cap capmap)]).length := by
          simp only [List.length_append, List.length_cons, List.length_nil]
          exact Nat.le_add_right_of_le hs
        obtain ⟨a1, a2, a3, a4, a5⟩ := ih
          (store ++ [(getCell store f.2).filter (fcKeep cap capmap)]) hrr hs2
        refine ⟨?_, ?_, ?_, ?_, ?_⟩
        · intro e he
          simp only [fcS, if_neg h1, if_neg h2] at he
          rcases List.mem_cons.mp he with he | he
          · rw [he]; exact hs
          · exact a1 e he
        · simp only [fcS, if_neg h1, if_neg h2, List.map_cons]
          rw [a2]
        · simpa only [fcS, if_neg h1, if_neg h2] using a3
        · simp only [fcS, if_neg h1, if_neg h2]
          rw [a4, List.take_append_of_le_length hs]
        · intro e he
          simp only [fcS, if_neg h1, if_neg h2] at he
          rcases List.mem_cons.mp he with he | he
          · rw [he]; exact List.mem_cons_self _ _
          · exact List.mem_cons_of_mem _ (a5 e he)

/-- Restore over the store writes only cells referenced by the dict, so it
preserves the store length and the prefix below the bound. -/
theorem restoreS_frame (n : Nat) (refs : DomRefs) (hr : RefsGe n refs) :
    ∀ (snap : List (PatId × List Val)) (store : Store),
      (∀ e ∈ snap, e.1 ∈ refs.map Prod.fst) → n ≤ store.length →
      n ≤ (restoreS refs snap store).length ∧
      (restoreS refs snap store).take n = store.take n := by
  intro snap
  induction snap with
  | nil => intro store _ hs; exact ⟨hs, rfl⟩
  | cons f snap ih =>
    intro store hk hs
    simp only [restoreS]
    by_cases hf : f.2.isEmpty
    · rw [if_pos hf]
      exact ih store (fun e he => hk e (List.mem_cons_of_mem _ he)) hs
    · rw [if_neg hf]
      have hcell : n ≤ alGetD f.1 refs 0 :=
        refsGe_get hr (hk f (List.mem_cons_self _ _))
      have hlen : (setCell store (alGetD f.1 refs 0)
          (sortBySlot (getCell store (alGetD f.1 refs 0) ++ f.2))).length = store.length :=
        List.length_set _ _ _
      obtain ⟨b1, b2⟩ := ih _ (fun e he => hk e (List.mem_cons_of_mem _ he))
        (by rw [hlen]; exact hs)
      refine ⟨b1, ?_⟩
      rw [b2]
      exact take_set_of_le _ _ _ _ hcell

theorem tryValsS_frame (n : Nat) (cap : List (DocId × Nat))
    (recur : HState → Store → Option Assign × HState × Store) (var : PatId)
    (hrec : ∀ st store, RefsGe n st.refs → n ≤ store.length →
      FrameOut n st.refs store (recur st store)) :
    ∀ (vals : List Val) (st : HState) (store : Store),
      RefsGe n st.refs → n ≤ store.length →
      FrameOut n st.refs store (tryValsS cap recur var vals st store) := by
  intro vals
  induction vals with
  | nil =>
    intro st store hr hs
    exact ⟨hr, rfl, hs, rfl⟩
  | cons val rest ih =>
    intro st store hr hs
    by_cases hguard : alGetD val.1 cap 1 ≤ alGetD val st.capmap 0
    · have heq : tryValsS cap recur var (val :: rest) st store
          = tryValsS cap recur var rest st store := by
        simp only [tryValsS, if_pos hguard]
      rw [heq]
      exact ih st store hr hs
    · set G := fcS cap (alSet val (alGetD val st.capmap 0 + 1) st.capmap)
        (alSet var val st.assigned) st.refs store with hG
      obtain ⟨g1, g2, g3, g4, g5⟩ := fcS_frame n cap
        (alSet val (alGetD val st.capmap 0 + 1) st.capmap)
        (alSet var val st.assigned) st.refs store hr hs
      rw [← hG] at g1 g2 g3 g4 g5
      by_cases hfail : G.1 = true
      · have heq : tryValsS cap recur var (val :: rest) st store
            = tryValsS cap recur var rest
                { assigned := alErase var (alSet var val st.assigned)
                  capmap := capDec val (alSet val (alGetD val st.capmap 0 + 1) st.capmap)
                  refs := G.2.1 }
                (restoreS G.2.1 G.2.2.2 G.2.2.1) := by
          simp only [tryValsS]
          rw [if_neg hguard, ← hG, if_pos hfail]
        rw [heq]
        have hsnap2 : ∀ e ∈ G.2.2.2, e.1 ∈ G.2.1.map Prod.fst := by
          intro e he
          rw [g2]
          exact g5 e he
        obtain ⟨r1, r2⟩ := restoreS_frame n G.2.1 g1 G.2.2.2 G.2.2.1 hsnap2 g3
        obtain ⟨c1, c2, c3, c4⟩ := ih
          { assigned := alErase var (alSet var val st.assigned)
            capmap := capDec val (alSet val (alGetD val st.capmap 0 + 1) st.capmap)
            refs := G.2.1 }
          (restoreS G.2.1 G.2.2.2 G.2.2.1) g1 r1
        exact ⟨c1, c2.trans g2, c3, (c4.trans r2).trans g4⟩
      · set stMid : HState :=
          { assigned := alSet var val st.assigned
            capmap := alSet val (alGetD val st.capmap 0 + 1) st.capmap
            refs := G.2.1 } with hMid
        have heq : tryValsS cap recur var (val :: rest) st store
            = (match recur stMid G.2.2.1 with
               | (some a, stR, storeR) => (some a, stR, storeR)
               | (none, stR, storeR) =>
                 tryValsS cap recur var rest
                   { assigned := alErase var stR.assigned
                     capmap := capDec val stR.capmap
                     refs := stR.refs }
                   (restoreS stR.refs G.2.2.2 storeR)) := by
          simp only [tryValsS]
          rw [if_neg hguard, ← hG, if_neg hfail, ← hMid]
        rw [heq]
        have hrec2 := hrec stMid G.2.2.1 g1 g3
        rcases hR : recur stMid G.2.2.1 with ⟨oa, stR, storeR⟩
        rw [hR] at hrec2
        obtain ⟨m1, m2, m3, m4⟩ := hrec2
        cases oa with
        | some a =>
          exact ⟨m1, m2.trans g2, m3, m4.trans g4⟩
        | none =>
          have hsnap3 : ∀ e ∈ G.2.2.2, e.1 ∈ stR.refs.map Prod.fst := by
            intro e he
            rw [m2, g2]
            exact g5 e he
          obtain ⟨r1, r2⟩ := restoreS_frame n stR.refs m1 G.2.2.2 storeR hsnap3 m3
          obtain ⟨c1, c2, c3, c4⟩ := ih
            { assigned := alErase var stR.assigned
              capmap := capDec val stR.capmap
              refs := stR.refs }
            (restoreS stR.refs G.2.2.2 storeR) m1 r1
          exact ⟨c1, (c2.trans m2).trans g2, c3, ((c4.trans r2).trans m4).trans g4⟩

theorem backtrackFuelS_frame (n : Nat) (cap : List (DocId × Nat))
    (pmeta : List (PatId × Bool)) :
    ∀ (fuel : Nat) (st : HState) (store : Store), RefsGe n st.refs → n ≤ store.length →
      FrameOut n st.refs store (backtrackFuelS cap pmeta fuel st store) := by
  intro fuel
  induction fuel with
  | zero =>
    intro st store hr hs
    exact ⟨hr, rfl, hs, rfl⟩
  | succ fuel ih =>
    intro st store hr hs
    by_cases hdone : st.assigned.length = st.refs.length
    · have heq : backtrackFuelS cap pmeta (fuel + 1) st store
          = (some st.assigned, st, store) := by
        simp [backtrackFuelS, hdone]
      rw [heq]
      exact ⟨hr, rfl, hs, rfl⟩
    · rcases hsel : select_unassigned_var (viewDoms st.refs store) st.assigned pmeta
        with _ | var
      · have heq : backtrackFuelS cap pmeta (fuel + 1) st store = (none, st, store) := by
          simp [backtrackFuelS, hdone, hsel]
        rw [heq]
        exact ⟨hr, rfl, hs, rfl⟩
      · have heq : backtrackFuelS cap pmeta (fuel + 1) st store
            = tryValsS cap (backtrackFuelS cap pmeta fuel) var
                (sortBySlot (alGetD var (viewDoms st.refs store) [])) st store := by
          simp [backtrackFuelS, hdone, hsel]
        rw [heq]
        exact tryValsS_frame n cap (backtrackFuelS cap pmeta fuel) var ih
          (sortBySlot (alGetD var (viewDoms st.refs store) [])) st store hr hs

/-- The copy step allocates fresh cells only, at indices at or above the
current store length. -/
theorem copyDoms_spec :
    ∀ (refs : DomRefs) (store : Store) (n : Nat), n ≤ store.length →
      RefsGe n (copyDoms refs store).1 ∧
      ∃ extra, (copyDoms refs store).2 = store ++ extra := by
  intro refs
  induction refs with
  | nil =>
    intro store n _
    exact ⟨by intro e he; simp [copyDoms] at he, [], by simp [copyDoms]⟩
  | cons f rest ih =>
    intro store n hn
    obtain ⟨c1, extra, c2⟩ := ih (store ++ [getCell store f.2]) n
      (by simp only [List.length_append, List.length_cons, List.length_nil]
          exact Nat.le_add_right_of_le hn)
    refine ⟨?_, ?_⟩
    · intro e he
      simp only [copyDoms] at he
      rcases List.mem_cons.mp he with he | he
      · rw [he]
        exact hn
      · exact c1 e he
    · refine ⟨getCell store f.2 :: extra, ?_⟩
      simp only [copyDoms]
      rw [c2]
      simp

/-- Claim C9: backtracking_search never mutates its caller's domain lists.
In the heap-level model the caller's list objects are the cells below the
original store length; after a full run (success or failure) that prefix of
the heap is unchanged, so every domain list passed in holds the same
elements in the same order as before the call. -/
theorem claim_C9 (callerRefs : DomRefs) (callerStore : Store)
    (cap : List (DocId × Nat)) (pmeta : List (PatId × Bool))
    (h : ∀ e ∈ callerRefs, e.2 < callerStore.length) :
    (backtracking_searchS callerRefs callerStore cap pmeta).2.take callerStore.length
      = callerStore ∧
    ∀ e ∈ callerRefs,
      getCell (backtracking_searchS callerRefs callerStore cap pmeta).2 e.2
        = getCell callerStore e.2 := by
  obtain ⟨c1, extra, c2⟩ :=
    copyDoms_spec callerRefs callerStore callerStore.length (Nat.le_refl _)
  have hlen : callerStore.length ≤ (copyDoms callerRefs callerStore).2.length := by
    rw [c2]
    simp
  obtain ⟨_, _, _, htake⟩ := backtrackFuelS_frame callerStore.length cap pmeta
    (callerRefs.length + 1)
    { assigned := [], capmap := [], refs := (copyDoms callerRefs callerStore).1 }
    (copyDoms callerRefs callerStore).2 c1 hlen
  have hcopytake : ((copyDoms callerRefs callerStore).2).take callerStore.length
      = callerStore := by
    rw [c2, List.take_append_of_le_length (Nat.le_refl _), List.take_length]
  have hbs : (backtracking_searchS callerRefs callerStore cap pmeta).2
      = (backtrackFuelS cap pmeta (callerRefs.length + 1)
          { assigned := [], capmap := [], refs := (copyDoms callerRefs callerStore).1 }
          (copyDoms callerRefs callerStore).2).2.2 := rfl
  have hmain : (backtracking_searchS callerRefs callerStore cap pmeta).2.take
      callerStore.length = callerStore := by
    rw [hbs, htake, hcopytake]
  refine ⟨hmain, ?_⟩
  intro e he
  have hi := h e he
  have hget : (backtracking_searchS callerRefs callerStore cap pmeta).2[e.2]?
      = callerStore[e.2]? := by
    have h2 := congrArg (fun l => l[e.2]?) hmain
    simp only at h2
    rw [List.getElem?_take, if_pos hi] at h2
    exact h2
  unfold getCell
  rw [List.getD_eq_getElem?_getD, List.getD_eq_getElem?_getD, hget]

theorem claim_C9_witness :
    (∀ e ∈ [((1 : Nat), (0 : Nat))], e.2 < ([[((1 : Nat), "09:00")]] : Store).length) ∧
    (backtracking_searchS [(1, 0)] [[(1, "09:00")]] [(1, 1)] [(1, false)]).2.take
      ([[((1 : Nat), "09:00")]] : Store).length = [[(1, "09:00")]] :=
  ⟨by decide,
    (claim_C9 [(1, 0)] [[(1, "09:00")]] [(1, 1)] [(1, false)] (by decide)).1⟩
